import Mathlib

/-!
Verification of the social-product-reviews discovery/ranking pipeline.

This file is a shallow embedding of the pipeline code (entity resolver,
ranker/scorer, evidence extractor, intent parser, retriever utilities and the
orchestrator) into Lean, together with theorems settling the frozen claims
about it.  JavaScript numbers are modeled as ℚ where fractional arithmetic
occurs and as ℕ/ℤ where the code only ever holds integers; LLM calls are
modeled by an explicit response parameter, with `none` standing for a call
that failed (the catch path).
-/

/-- A JavaScript whitespace character as matched by the regex class \s
(restricted to the ASCII range, which is all that occurs in this data). -/
def jsWs (c : Char) : Bool :=
  c == ' ' || c == '\t' || c == '\n' || c == '\r' || c == '\x0b' || c == '\x0c'

/-- Maximal runs of characters not matched by p, accumulator-style.
The accumulator holds the current run reversed. -/
def splitRunsAux (p : Char → Bool) : List Char → List Char → List (List Char)
  | [], cur => if cur.isEmpty then [] else [cur.reverse]
  | c :: cs, cur =>
    if p c then
      if cur.isEmpty then splitRunsAux p cs []
      else cur.reverse :: splitRunsAux p cs []
    else splitRunsAux p cs (c :: cur)

/-- The maximal runs of characters of s not matched by p (the nonempty
fragments of a JS String.prototype.split on a one-or-more regex over p). -/
def splitRuns (p : Char → Bool) (s : String) : List String :=
  (splitRunsAux p s.data []).map (fun cs => String.mk cs)

/-- JS s.split(re) where re matches one or more characters satisfying p:
the nonempty fragments, plus an empty leading fragment when s starts with a
matching character, an empty trailing fragment when s ends with one, and a
single empty fragment for the empty string. -/
def jsSplitRuns (p : Char → Bool) (s : String) : List String :=
  match s.data with
  | [] => [""]
  | c :: cs =>
    (if p c then [""] else []) ++ splitRuns p s
      ++ (if p ((c :: cs).getLastD c) then [""] else [])

/-- JS String.prototype.includes: small occurs contiguously inside big. -/
def containsSub (big small : String) : Bool :=
  big.data.tails.any (fun t => small.data.isPrefixOf t)

/-- Splitting at every occurrence of a separator character, accumulator-style
(the accumulator holds the current fragment reversed). -/
def splitCharAux (sep : Char) : List Char → List Char → List String
  | [], cur => [String.mk cur.reverse]
  | c :: cs, cur =>
    if c = sep then String.mk cur.reverse :: splitCharAux sep cs []
    else splitCharAux sep cs (c :: cur)

/-- JS s.split(sep) for a one-character separator: fragments between every
occurrence of sep, keeping empty fragments (so the empty string gives [""]
and consecutive separators give empty fragments), exactly the JS
String.prototype.split semantics. -/
def jsSplitChar (sep : Char) (s : String) : List String :=
  splitCharAux sep s.data []

/-- JS s.slice(0, n): the first n characters of s (JS counts UTF-16 code
units; the quotes handled here are ASCII, where the two coincide). -/
def jsSlice (s : String) (n : ℕ) : String :=
  String.mk (s.data.take n)

/-- JS Set insertion-order deduplication, accumulator of already-seen
elements. -/
def jsDedupAux [DecidableEq α] (seen : List α) : List α → List α
  | [] => []
  | x :: xs => if x ∈ seen then jsDedupAux seen xs else x :: jsDedupAux (x :: seen) xs

/-- JS new Set(list) spread back to a list: keeps the first occurrence of each
element, in order. -/
def jsDedup [DecidableEq α] (l : List α) : List α := jsDedupAux [] l

/-! ## Data model (src/lib/types) -/

/-- CandidateProduct from the pipeline types.  mentionCount is built by
counting (starts at 1, incremented, summed on merge), hence ℕ. -/
structure CandidateProduct where
  brand : String
  model : String
  variant : Option String
  category : String
  mentionCount : ℕ
  sources : List String
  deriving DecidableEq

/-! ## Entity resolver (entity-resolver.ts) -/

/-- normalize from entity-resolver.ts: lowercase brand + " " + model, strip
every character other than a-z, 0-9 and whitespace, collapse whitespace runs
to a single space, trim.  Collapsing plus trimming is realized by taking the
maximal non-whitespace runs and re-joining them with single spaces.  (Named
normalizeName because Mathlib already has a root-level normalize.) -/
def normalizeName (brand model : String) : String :=
  let lowered := (brand ++ " " ++ model).data.map Char.toLower
  let kept := lowered.filter (fun c =>
    decide ('a' ≤ c ∧ c ≤ 'z') || decide ('0' ≤ c ∧ c ≤ '9') || jsWs c)
  String.intercalate " " ((splitRunsAux jsWs kept []).map (fun cs => String.mk cs))

/-- isSimilar from entity-resolver.ts.  The Jaccard comparison
intersection/union > 0.7 is written cross-multiplied over ℕ.  JS
a.split(" ") splits at every single space (String.splitOn " " has the same
semantics, including the [""] result on the empty string), and the two
new Set(...) constructions only ever feed a cardinality. -/
def isSimilar (a b : String) : Bool :=
  if a == b then true
  else if containsSub a b || containsSub b a then true
  else
    let tokensA := jsDedup (jsSplitChar ' ' a)
    let tokensB := jsDedup (jsSplitChar ' ' b)
    let inter := tokensA.filter (fun t => tokensB.contains t)
    let unionTokens := jsDedup (tokensA ++ tokensB)
    10 * inter.length > 7 * unionTokens.length

/-- One fuzzy-merge group: the first member (whose normalized name is the
group key, group[0] in the source) paired with the later members in insertion
order. -/
def groupMembers (g : CandidateProduct × List CandidateProduct) :
    List CandidateProduct :=
  g.1 :: g.2

/-- The greedy group-assignment loop body of fuzzyMerge: append the candidate
to the first group whose representative is similar, else open a new group at
the end. -/
def addToGroups (groups : List (CandidateProduct × List CandidateProduct))
    (c : CandidateProduct) : List (CandidateProduct × List CandidateProduct) :=
  match groups with
  | [] => [(c, [])]
  | g :: rest =>
    if isSimilar (normalizeName c.brand c.model) (normalizeName g.1.brand g.1.model) then
      (g.1, g.2 ++ [c]) :: rest
    else
      g :: addToGroups rest c

/-- The JS stable sort by mentionCount descending (comparator
b.mentionCount - a.mentionCount).  List.insertionSort with this total
preorder is stable, hence produces the same list as the JS sort. -/
def sortByMentionDesc (l : List CandidateProduct) : List CandidateProduct :=
  List.insertionSort (fun a b => b.mentionCount ≤ a.mentionCount) l

/-- mergeGroup from entity-resolver.ts: stably sort the group by mentionCount
descending, take the head as canonical, sum the mention counts, union the
source lists (JS Set, first occurrence kept, traversed in sorted order). -/
def mergeGroup (g : CandidateProduct × List CandidateProduct) : CandidateProduct :=
  let sorted := sortByMentionDesc (groupMembers g)
  let canonical := sorted.headD g.1
  let total := (sorted.map (fun p => p.mentionCount)).sum
  let allSources := jsDedup (sorted.flatMap (fun p => p.sources))
  { canonical with mentionCount := total, sources := allSources }

/-- fuzzyMerge from entity-resolver.ts. -/
def fuzzyMerge (candidates : List CandidateProduct) : List CandidateProduct :=
  (candidates.foldl addToGroups []).map mergeGroup

/-- One merge group of the phase-2 LLM response.  JSON indices are modeled as
ℕ; a negative or fractional index in JS yields undefined on lookup and is
modeled the same way as an out-of-range natural. -/
structure MergeGroupSpec where
  canonicalIndex : ℕ
  mergeIndices : List ℕ
  deriving DecidableEq

/-- The inner loop body of the geminiResolve merge application: skip the
merge when idx equals the canonical index or resolvedTop[idx] is undefined;
otherwise add the duplicate's mentionCount into the canonical entry, union the
sources, and record idx as merged. -/
def applyOne (canIdx : ℕ) (st : List CandidateProduct × List ℕ) (idx : ℕ) :
    List CandidateProduct × List ℕ :=
  if idx = canIdx then st
  else
    match st.1.get? idx, st.1.get? canIdx with
    | some dup, some canonical =>
      (st.1.set canIdx
        { canonical with
          mentionCount := canonical.mentionCount + dup.mentionCount,
          sources := jsDedup (canonical.sources ++ dup.sources) },
       st.2 ++ [idx])
    | _, _ => st

/-- One group of the geminiResolve merge application: skipped entirely when
resolvedTop[canonicalIndex] is undefined.  (The source grabs the canonical
object once before the loop; the list length never changes inside the loop,
so the per-step lookup in applyOne succeeds exactly when this one does, and it
reads the current value just as the mutated JS object reference would.) -/
def applyGroup (st : List CandidateProduct × List ℕ) (g : MergeGroupSpec) :
    List CandidateProduct × List ℕ :=
  match st.1.get? g.canonicalIndex with
  | none => st
  | some _ => g.mergeIndices.foldl (applyOne g.canonicalIndex) st

/-- resolvedTop.filter((_, i) => !merged.has(i)). -/
def filterIdx (l : List CandidateProduct) (merged : List ℕ) : List CandidateProduct :=
  (l.enum.filter (fun p => !(decide (p.1 ∈ merged)))).map (fun p => p.2)

/-- geminiResolve from entity-resolver.ts, with the LLM response as an
explicit parameter (none = generateJSON threw, the catch path returning the
phase-1 candidates unchanged; a response with a missing groups field is
some [] via the groups default). -/
def geminiResolve (candidates : List CandidateProduct)
    (resp : Option (List MergeGroupSpec)) : List CandidateProduct :=
  match resp with
  | none => candidates
  | some groups =>
    let topCandidates := candidates.take 80
    let rest := candidates.drop 80
    let st := groups.foldl applyGroup (topCandidates, [])
    let deduped := filterIdx st.1 st.2
    sortByMentionDesc (deduped ++ rest)

/-- resolveEntities from entity-resolver.ts. -/
def resolveEntities (candidates : List CandidateProduct)
    (resp : Option (List MergeGroupSpec)) : List CandidateProduct :=
  if candidates.length ≤ 1 then candidates
  else
    let fuzzyMerged := fuzzyMerge candidates
    if 20 < fuzzyMerged.length then geminiResolve fuzzyMerged resp
    else fuzzyMerged

/-- Total mention count of a candidate list. -/
def sumMentions (l : List CandidateProduct) : ℕ :=
  (l.map (fun c => c.mentionCount)).sum

example :
    (fuzzyMerge
      [ { brand := "Sony", model := "WF-1000XM5", variant := none,
          category := "earbuds", mentionCount := 5, sources := ["a"] },
        { brand := "Sony", model := "WF-1000XM5", variant := none,
          category := "earbuds", mentionCount := 3, sources := ["b"] } ]).map
      (fun c => c.mentionCount) = [8] := by decide

example :
    (fuzzyMerge
      [ { brand := "Sony", model := "WF-1000XM5", variant := none,
          category := "earbuds", mentionCount := 5, sources := ["a"] },
        { brand := "Bose", model := "QuietComfort Ultra", variant := none,
          category := "earbuds", mentionCount := 4, sources := ["b"] } ]).length = 2 := by
  decide

/-! ## Ranker / scorer (ranker.ts) -/

/-- ExtractedEvidence from the pipeline types.  sentiment and platform are
the raw strings of the JSON contract. -/
structure ExtractedEvidence where
  productRef : String
  sentiment : String
  themes : List String
  claimTags : List String
  quote : String
  sourceUrl : String
  platform : String
  deriving DecidableEq

/-- ParsedIntent from the pipeline types. -/
structure ParsedIntent where
  useCase : String
  constraints : List String
  mustHaves : List String
  niceToHaves : List String
  deriving DecidableEq

/-- ScoringDimensions: the six reported integers. -/
structure ScoringDimensions where
  queryFit : ℤ
  redditEndorsement : ℤ
  socialProofCoverage : ℤ
  riskScore : ℤ
  confidenceScore : ℤ
  overall : ℤ
  deriving DecidableEq

/-- JS Math.round: round half toward positive infinity. -/
def jround (q : ℚ) : ℤ := ⌊q + 1 / 2⌋

/-- computeQueryFit from ranker.ts.  JS numbers are modeled as exact
rationals; term.split on the one-or-more whitespace regex is jsSplitRuns. -/
def computeQueryFit (evidence : List ExtractedEvidence) (intent : ParsedIntent) : ℚ :=
  if evidence.length = 0 then 20
  else
    let allTagsLower :=
      (evidence.flatMap (fun e => e.themes ++ e.claimTags)).map String.toLower
    let targetTerms :=
      (intent.constraints ++ intent.mustHaves ++ intent.niceToHaves).map String.toLower
    if targetTerms.length = 0 then 50
    else
      let matchCount := targetTerms.countP (fun term =>
        (jsSplitRuns jsWs term).any (fun token =>
          allTagsLower.any (fun tag => containsSub tag token)))
      min 100 (20 + (matchCount : ℚ) / (targetTerms.length : ℚ) * 80)

/-- computeRedditEndorsement from ranker.ts (the candidate parameter is
unused in the source as well). -/
def computeRedditEndorsement (candidate : CandidateProduct)
    (evidence : List ExtractedEvidence) : ℚ :=
  let redditEvidence := evidence.filter (fun e => e.platform == "reddit")
  if redditEvidence.length = 0 then 10
  else
    let positiveCount := (redditEvidence.filter (fun e => e.sentiment == "positive")).length
    let totalCount := redditEvidence.length
    let positiveShare := (positiveCount : ℚ) / (totalCount : ℚ)
    min 100 (min 50 ((totalCount : ℚ) * 5) + positiveShare * 50)

/-- computeSocialCoverage from ranker.ts. -/
def computeSocialCoverage (candidate : CandidateProduct)
    (evidence : List ExtractedEvidence) : ℚ :=
  let platforms := jsDedup (evidence.map (fun e => e.platform))
  min 100 ((platforms.length : ℚ) * 20 + min 40 ((evidence.length : ℚ) * 3)
    + min 20 ((candidate.mentionCount : ℚ) * 2))

/-- computeRiskScore from ranker.ts: the inner Math.round is part of this
function in the source. -/
def computeRiskScore (evidence : List ExtractedEvidence) : ℚ :=
  if evidence.length = 0 then 50
  else
    let negativeCount := (evidence.filter (fun e => e.sentiment == "negative")).length
    let complaintShare := (negativeCount : ℚ) / (evidence.length : ℚ)
    ((jround (max 0 (100 - complaintShare * 150)) : ℤ) : ℚ)

/-- computeConfidenceScore from ranker.ts. -/
def computeConfidenceScore (candidate : CandidateProduct)
    (evidence : List ExtractedEvidence) : ℚ :=
  let uniqueSources := jsDedup (evidence.map (fun e => e.sourceUrl))
  min 100 (min 50 ((evidence.length : ℚ) * 5) + min 30 ((uniqueSources.length : ℚ) * 5)
    + min 20 ((candidate.mentionCount : ℚ) * 2))

/-- computeScores from ranker.ts.  The float literals 0.30/0.25/0.15 are
modeled as the exact rationals they denote. -/
def computeScores (candidate : CandidateProduct) (evidence : List ExtractedEvidence)
    (intent : ParsedIntent) : ScoringDimensions :=
  let queryFit := computeQueryFit evidence intent
  let redditEndorsement := computeRedditEndorsement candidate evidence
  let socialProofCoverage := computeSocialCoverage candidate evidence
  let riskScore := computeRiskScore evidence
  let confidenceScore := computeConfidenceScore candidate evidence
  let overall := queryFit * (30 / 100) + redditEndorsement * (25 / 100)
    + socialProofCoverage * (15 / 100) + riskScore * (15 / 100)
    + confidenceScore * (15 / 100)
  { queryFit := jround queryFit
    redditEndorsement := jround redditEndorsement
    socialProofCoverage := jround socialProofCoverage
    riskScore := jround riskScore
    confidenceScore := jround confidenceScore
    overall := jround overall }

/-- The key format shared by extractEvidence and rankCandidates. -/
def candKey (c : CandidateProduct) : String := c.brand ++ "|" ++ c.model

/-- One element of the scored array built in rankCandidates step 1. -/
structure ScoredItem where
  candidate : CandidateProduct
  scores : ScoringDimensions
  evidence : List ExtractedEvidence
  deriving DecidableEq

/-- The evidence Map handed to the ranker, modeled as an association list
with JS Map lookup semantics (the map's keys are unique; find the first
binding). -/
def jsMapGet (m : List (String × List ExtractedEvidence)) (k : String) :
    Option (List ExtractedEvidence) :=
  (m.find? (fun p => p.1 == k)).map (fun p => p.2)

/-- Step 1 of rankCandidates: score every candidate, defaulting to an empty
evidence list when the key is absent (evidenceMap.get(key) ?? []). -/
def scoredOf (candidates : List CandidateProduct)
    (evidenceMap : List (String × List ExtractedEvidence)) (intent : ParsedIntent) :
    List ScoredItem :=
  candidates.map (fun candidate =>
    let evidence := (jsMapGet evidenceMap (candKey candidate)).getD []
    { candidate := candidate
      scores := computeScores candidate evidence intent
      evidence := evidence })

/-- The ranker's sort order: the JS comparator
b.scores.overall - a.scores.overall, as a total preorder. -/
def rankRel (a b : ScoredItem) : Prop := b.scores.overall ≤ a.scores.overall

instance : DecidableRel rankRel :=
  fun a b => inferInstanceAs (Decidable (b.scores.overall ≤ a.scores.overall))

/-- rankRel lifted to index-tagged scored items (used to reason about
stability of the sort). -/
def rankRelT (a b : ℕ × ScoredItem) : Prop := rankRel a.2 b.2

instance : DecidableRel rankRelT := fun a b => inferInstanceAs (Decidable (rankRel a.2 b.2))

/-- The strict stability order on index-tagged scored items: strictly larger
overall score, or equal overall score and smaller original position.  A JS
stable sort produces a sequence sorted in this order when items are tagged
with their original positions. -/
def rankStrict (a b : ℕ × ScoredItem) : Prop :=
  b.2.scores.overall < a.2.scores.overall ∨
    (a.2.scores.overall = b.2.scores.overall ∧ a.1 < b.1)

/-- Step 2 of rankCandidates: the JS stable sort by overall descending
(comparator b.scores.overall - a.scores.overall), realized by the stable
List.insertionSort on the matching total preorder. -/
def sortedScoredOf (candidates : List CandidateProduct)
    (evidenceMap : List (String × List ExtractedEvidence)) (intent : ParsedIntent) :
    List ScoredItem :=
  List.insertionSort rankRel (scoredOf candidates evidenceMap intent)

/-- CitationRef carried by a ranked product.  The capture timestamp
(new Date().toISOString()) is an impure value not modeled. -/
structure CitationRef where
  url : String
  platform : String
  snippet : String
  deriving DecidableEq

/-- RankedProduct from the pipeline types (productId is filled in only at
persistence time and stays "" here, as in the ranker). -/
structure RankedProduct where
  productId : String
  rank : ℕ
  scores : ScoringDimensions
  rationale : String
  citations : List CitationRef
  deriving DecidableEq

/-- generateRationales from ranker.ts: build the ranked list from the top-10
scored items and the LLM rationale response (none = generateJSON threw, in
which case rationales stays [], the same as a response with a missing
rationales field). -/
def generateRationales (top10 : List ScoredItem) (rationaleResp : Option (List String)) :
    List RankedProduct :=
  let rationales := rationaleResp.getD []
  top10.enum.map (fun p =>
    { productId := ""
      rank := p.1 + 1
      scores := p.2.scores
      rationale := (rationales.get? p.1).getD
        ("Ranked #" ++ toString (p.1 + 1) ++ " based on social proof analysis.")
      citations := (p.2.evidence.take 5).map (fun ev =>
        { url := ev.sourceUrl, platform := ev.platform, snippet := ev.quote }) })

/-- The RankingResult returned by rankCandidates. -/
structure RankingResult where
  rankedProducts : List RankedProduct
  candidateCount : ℕ
  deriving DecidableEq

/-- rankCandidates from ranker.ts, with the rationale-generation LLM response
as an explicit parameter. -/
def rankCandidates (candidates : List CandidateProduct)
    (evidenceMap : List (String × List ExtractedEvidence)) (intent : ParsedIntent)
    (rationaleResp : Option (List String)) : RankingResult :=
  let sorted := sortedScoredOf candidates evidenceMap intent
  let top10 := sorted.take 10
  { rankedProducts := generateRationales top10 rationaleResp
    candidateCount := candidates.length }

/-! ## Evidence extractor (evidence-extractor.ts) -/

/-- A retrieved mention (the fields used by the evidence extractor). -/
structure RetrievedMention where
  platform : String
  url : String
  text : String
  deriving DecidableEq

/-- One evidence item of the extraction LLM response.  A negative or
fractional JSON sourceIndex yields undefined on array lookup in JS and is
modeled by an out-of-range natural. -/
structure RawEvidenceItem where
  sentiment : String
  themes : List String
  claimTags : List String
  quote : String
  sourceIndex : ℕ
  deriving DecidableEq

/-- extractForProduct from evidence-extractor.ts: cap the relevant mentions
at 20, then map each returned item's sourceIndex back to the capped mention's
url and platform, with capped[i]?.url ?? "" and capped[i]?.platform ?? "web"
on an undefined lookup; the quote is sliced to 150 characters.  resp = none is the catch path (generateJSON threw),
returning []. -/
def extractForProduct (candidate : CandidateProduct)
    (mentions : List RetrievedMention) (resp : Option (List RawEvidenceItem)) :
    List ExtractedEvidence :=
  let capped := mentions.take 20
  match resp with
  | none => []
  | some items =>
    items.map (fun ev =>
      { productRef := candidate.brand ++ " " ++ candidate.model
        sentiment := ev.sentiment
        themes := ev.themes
        claimTags := ev.claimTags
        quote := jsSlice ev.quote 150
        sourceUrl := ((capped.get? ev.sourceIndex).map (fun m => m.url)).getD ""
        platform := ((capped.get? ev.sourceIndex).map (fun m => m.platform)).getD "web" })

/-! ## Intent parser (intent-parser.ts) -/

/-- The result shape of parseIntent. -/
structure IntentParserResult where
  intent : ParsedIntent
  seedTerms : List String
  inferredCategory : String
  deriving DecidableEq

/-- The raw LLM response of the intent-parsing call, every field possibly
missing (the untyped JSON contract). -/
structure GeminiIntentResponse where
  intent : Option ParsedIntent
  seedTerms : Option (List String)
  inferredCategory : Option String
  deriving DecidableEq

/-- generateFallbackTerms from intent-parser.ts.  new Date().getFullYear()
is an impure value passed in as the year parameter. -/
def generateFallbackTerms (rawQuery : String) (year : ℕ) : List String :=
  let base := rawQuery.trim
  [ base
  , "best " ++ base
  , base ++ " reddit"
  , base ++ " review"
  , base ++ " recommendation"
  , "top " ++ base ++ " " ++ toString year
  , base ++ " vs"
  , base ++ " buying guide" ]

/-- parseIntent from intent-parser.ts, with the LLM response as an explicit
parameter (none = the generateJSON call threw, the catch path).  The
validation/repair rules run on a successful response: fewer than 5 (or
missing) seedTerms are replaced by the fallback terms, a missing intent by
the default intent, a missing inferredCategory by "general". -/
def parseIntent (rawQuery : String) (year : ℕ) (resp : Option GeminiIntentResponse) :
    IntentParserResult :=
  match resp with
  | none =>
    { intent := { useCase := rawQuery, constraints := [], mustHaves := [], niceToHaves := [] }
      seedTerms := generateFallbackTerms rawQuery year
      inferredCategory := "general" }
  | some r =>
    { intent := r.intent.getD
        { useCase := rawQuery, constraints := [], mustHaves := [], niceToHaves := [] }
      seedTerms :=
        match r.seedTerms with
        | none => generateFallbackTerms rawQuery year
        | some ts => if ts.length < 5 then generateFallbackTerms rawQuery year else ts
      inferredCategory := r.inferredCategory.getD "general" }

/-! ## Retriever utilities (utils.ts): withRetry and checkRateLimit -/

/-- The retry loop of withRetry, with the wrapped operation modeled as a
function from 0-based invocation number to its outcome, returning the final
outcome together with the number of invocations performed.  The fuel
argument mirrors the loop bound (the loop runs for attempt = 0..maxRetries,
so fuel starts at maxRetries + 1); the fuel-0 branch is the unreachable
throw after the loop.  The onRetry callback and the backoff sleep do not
affect the result and are not modeled. -/
def withRetryAux (f : ℕ → Except String α) (maxRetries : ℕ) :
    ℕ → ℕ → Except String α × ℕ
  | _, 0 => (Except.error "withRetry: exhausted retries", 0)
  | attempt, fuel + 1 =>
    match f attempt with
    | Except.ok v => (Except.ok v, 1)
    | Except.error e =>
      if attempt = maxRetries then (Except.error e, 1)
      else
        let r := withRetryAux f maxRetries (attempt + 1) fuel
        (r.1, r.2 + 1)

/-- withRetry from the retriever utilities. -/
def withRetry (f : ℕ → Except String α) (maxRetries : ℕ) : Except String α × ℕ :=
  withRetryAux f maxRetries 0 (maxRetries + 1)

/-- One checkRateLimit call for a fixed platform: prune log entries with
now - t >= windowMs, reject when at least maxRequests remain, otherwise push
now.  Timestamps are integer milliseconds. -/
def rlStep (maxRequests : ℕ) (windowMs : ℤ) (log : List ℤ) (now : ℤ) :
    Bool × List ℤ :=
  let pruned := log.filter (fun t => now - t < windowMs)
  if maxRequests ≤ pruned.length then (false, pruned)
  else (true, pruned ++ [now])

/-- The per-call boolean results of a sequence of checkRateLimit calls at the
given timestamps, starting from the given request log. -/
def rlResults (maxRequests : ℕ) (windowMs : ℤ) : List ℤ → List ℤ → List Bool
  | _, [] => []
  | log, t :: ts =>
    let r := rlStep maxRequests windowMs log t
    r.1 :: rlResults maxRequests windowMs r.2 ts

/-- The timestamps of the permitted calls of a sequence of checkRateLimit
calls, starting from the given request log. -/
def rlPermitted (maxRequests : ℕ) (windowMs : ℤ) : List ℤ → List ℤ → List ℤ
  | _, [] => []
  | log, t :: ts =>
    let r := rlStep maxRequests windowMs log t
    (if r.1 then [t] else []) ++ rlPermitted maxRequests windowMs r.2 ts

/-- Specification-level recursion for the rate limiter: instead of the pruned
log it carries the full list of previously permitted timestamps and tests how
many of them are still inside the current call's window.  Proved equivalent
to rlResults for monotone call sequences. -/
def rlSpecResults (maxRequests : ℕ) (windowMs : ℤ) : List ℤ → List ℤ → List Bool
  | _, [] => []
  | P, t :: ts =>
    if (P.filter (fun p => t - p < windowMs)).length < maxRequests then
      true :: rlSpecResults maxRequests windowMs (P ++ [t]) ts
    else
      false :: rlSpecResults maxRequests windowMs P ts

/-- The permitted timestamps of the specification-level recursion. -/
def rlSpecPermitted (maxRequests : ℕ) (windowMs : ℤ) : List ℤ → List ℤ → List ℤ
  | _, [] => []
  | P, t :: ts =>
    if (P.filter (fun p => t - p < windowMs)).length < maxRequests then
      t :: rlSpecPermitted maxRequests windowMs (P ++ [t]) ts
    else
      rlSpecPermitted maxRequests windowMs P ts

/-! ## Orchestrator (pipeline.ts runPipeline, logger.ts logSearch)

The orchestrator's effects are modeled in a small monad PM: a computation
threads the list of query-status writes attempted so far and either returns a
value or an error string (a thrown JS error's message).  Unlike an
exception-state transformer that rolls state back on a throw, PM keeps the
statuses already attempted when an error propagates, matching the real
side-effecting execution.  Every pipeline step and every persistence call is
an oracle in the environment, so the theorems quantify over all behaviors,
including throwing store calls. -/

/-- Query lifecycle status values written by the orchestrator. -/
inductive QStatus where
  | processing
  | completed
  | failed
  deriving DecidableEq

/-- The pipeline-effects monad: status-write trace plus JS exceptions. -/
def PM (α : Type) : Type := List QStatus → Except String α × List QStatus

instance : Monad PM where
  pure a := fun s => (Except.ok a, s)
  bind x f := fun s =>
    match x s with
    | (Except.ok a, s') => f a s'
    | (Except.error e, s') => (Except.error e, s')

/-- throw new Error(msg). -/
def pmThrow (e : String) : PM α := fun s => (Except.error e, s)

/-- An awaited store/step call that performs no status write. -/
def pmLift (x : Except String α) : PM α := fun s => (x, s)

/-- try x catch (e) handler e. -/
def pmCatch (x : PM α) (handler : String → PM α) : PM α := fun s =>
  match x s with
  | (Except.ok a, s') => (Except.ok a, s')
  | (Except.error e, s') => handler e s'

/-- x.catch(() => ()): run x, swallow its failure. -/
def pmSwallow (x : PM α) : PM Unit := fun s => (Except.ok (), (x s).2)

/-- The query record fetched from the store (the fields runPipeline uses). -/
structure QueryRec where
  rawQuery : String
  userId : Option String
  deriving DecidableEq

/-- What generateCandidates hands back, as far as control flow cares: the
candidate list (only its emptiness is branched on) plus the data threaded to
later steps, all abstracted. -/
structure GenResultModel where
  candidatesLen : ℕ
  deriving DecidableEq

/-- What rankCandidates hands back, as far as the result record cares. -/
structure RankResultModel where
  top10Len : ℕ
  candidateCount : ℕ
  deriving DecidableEq

/-- The environment of oracles: one entry per awaited call in runPipeline and
logSearch/logEvent.  Each models the call's outcome; Except.error e is the
call throwing an error with message e.  Data dependence of a step on earlier
steps' outputs is irrelevant to the orchestration claims, which quantify over
every environment. -/
structure PipelineEnv where
  queryId : String
  findQuery : Except String (Option QueryRec)
  updateStatus : QStatus → Except String Unit
  storeIntent : Except String Unit
  parseIntentStep : Except String IntentParserResult
  generateCandidatesStep : Except String GenResultModel
  resolveStep : Except String Unit
  extractStep : Except String Unit
  ingredientStep : Except String Unit
  rankStep : Except String RankResultModel
  persistStep : Except String Unit
  searchLogCreate : Except String Unit
  eventLogCreate : Except String Unit
  durationMs : ℕ

/-- PipelineResult from pipeline.ts. -/
structure PipelineResult where
  queryId : String
  success : Bool
  candidateCount : ℕ
  top10Count : ℕ
  durationMs : ℕ
  error : Option String
  deriving DecidableEq

/-- prisma.query.update({status}): records the attempted status write, then
yields the store oracle's outcome. -/
def pmUpdateStatus (env : PipelineEnv) (st : QStatus) : PM Unit := fun s =>
  (env.updateStatus st, s ++ [st])

/-- logEvent from logger.ts: one eventLog.create wrapped in try/catch. -/
def logEventM (env : PipelineEnv) : PM Unit :=
  pmCatch (pmLift env.eventLogCreate) (fun _ => pure ())

/-- logSearch from logger.ts: searchLog.create then logEvent, all wrapped in
one try/catch. -/
def logSearchM (env : PipelineEnv) : PM Unit :=
  pmCatch (do pmLift env.searchLogCreate; logEventM env) (fun _ => pure ())

/-- The body of runPipeline's try block, step by step in source order. -/
def runPipelineTry (env : PipelineEnv) : PM PipelineResult := do
  let q ← pmLift env.findQuery
  match q with
  | none => pmThrow ("Query " ++ env.queryId ++ " not found")
  | some _ => do
    pmUpdateStatus env QStatus.processing
    let _ ← pmLift env.parseIntentStep
    pmLift env.storeIntent
    let gen ← pmLift env.generateCandidatesStep
    if gen.candidatesLen = 0 then do
      pmUpdateStatus env QStatus.completed
      logSearchM env
      pure { queryId := env.queryId, success := true, candidateCount := 0,
             top10Count := 0, durationMs := env.durationMs, error := none }
    else do
      pmLift env.resolveStep
      pmLift env.extractStep
      pmLift env.ingredientStep
      let rk ← pmLift env.rankStep
      pmLift env.persistStep
      pmUpdateStatus env QStatus.completed
      logSearchM env
      pure { queryId := env.queryId, success := true,
             candidateCount := rk.candidateCount, top10Count := rk.top10Len,
             durationMs := env.durationMs, error := none }

/-- The catch block of runPipeline: a best-effort FAILED write whose own
failure is swallowed (.catch(() => ())), the failure logSearch, then the
structured failure result carrying the triggering error's message. -/
def runPipelineCatch (env : PipelineEnv) (e : String) : PM PipelineResult := do
  pmSwallow (pmUpdateStatus env QStatus.failed)
  logSearchM env
  pure { queryId := env.queryId, success := false, candidateCount := 0,
         top10Count := 0, durationMs := env.durationMs, error := some e }

/-- runPipeline from pipeline.ts: the try block guarded by the catch block,
run from the empty status-write trace.  Returns the outcome together with
the trace of attempted status writes. -/
def runPipeline (env : PipelineEnv) : Except String PipelineResult × List QStatus :=
  pmCatch (runPipelineTry env) (runPipelineCatch env) []

/-- Total mention count of a list of candidates indexed from position i,
skipping the positions recorded as merged.  This is the sum that the final
filter of geminiResolve leaves behind. -/
def uSumAux (merged : List ℕ) : ℕ → List CandidateProduct → ℕ
  | _, [] => 0
  | i, c :: cs => (if i ∈ merged then 0 else c.mentionCount) + uSumAux merged (i + 1) cs

/-! ## Concrete instances used by counterexamples and witnesses -/

/-- Shorthand for a concrete candidate. -/
def mkCand (b m : String) (n : ℕ) : CandidateProduct :=
  { brand := b, model := m, variant := none, category := "c",
    mentionCount := n, sources := [] }

/-- Twenty candidates with pairwise-dissimilar names (equal lengths, disjoint
token sets, so neither equality, substring containment nor Jaccard overlap
ever holds between two of them). -/
def midCands : List CandidateProduct :=
  [ mkCand "bb" "qb" 1, mkCand "bc" "qc" 1, mkCand "bd" "qd" 1, mkCand "be" "qe" 1
  , mkCand "bf" "qf" 1, mkCand "bg" "qg" 1, mkCand "bh" "qh" 1, mkCand "bi" "qi" 1
  , mkCand "bj" "qj" 1, mkCand "bk" "qk" 1, mkCand "bl" "ql" 1, mkCand "bm" "qm" 1
  , mkCand "bn" "qn" 1, mkCand "bo" "qo" 1, mkCand "bp" "qp" 1, mkCand "bq" "qq" 1
  , mkCand "br" "qr" 1, mkCand "bs" "qs" 1, mkCand "bt" "qt" 1, mkCand "bu" "qu" 1 ]

/-- 21 pairwise-dissimilar candidates, so the fuzzy merge keeps all 21 groups
and phase 2 is triggered. -/
def distinctCands : List CandidateProduct :=
  mkCand "ba" "qa" 1 :: midCands

/-- 22 candidates whose fuzzy merge yields 21 groups with mention counts
[2, 1, ..., 1, 2]: the duplicate of the last name merges into the last group,
leaving the fuzzy-merge output unsorted. -/
def unsortedBig : List CandidateProduct :=
  (mkCand "ba" "qa" 2 :: midCands) ++ [mkCand "bu" "qu" 1]

/-- Three candidates whose fuzzy merge yields [5, 8]: the two equal names
merge behind the first group. -/
def smallUnsorted : List CandidateProduct :=
  [ mkCand "ba" "qa" 5, mkCand "bb" "qb" 4, mkCand "bb" "qb" 4 ]

/-- A concrete candidate with no evidence entry. -/
def acmeCand : CandidateProduct := mkCand "Acme" "X1" 1

/-- An intent with no constraint/must-have/nice-to-have terms. -/
def emptyIntent : ParsedIntent :=
  { useCase := "q", constraints := [], mustHaves := [], niceToHaves := [] }

/-- A single concrete reddit mention. -/
def redditMention : RetrievedMention :=
  { platform := "reddit", url := "https://a", text := "great product" }

/-- A raw evidence item whose sourceIndex points past the capped mention
list. -/
def strayEvidence : RawEvidenceItem :=
  { sentiment := "positive", themes := [], claimTags := [], quote := "ok",
    sourceIndex := 5 }

/-- A raw evidence item with an in-range sourceIndex. -/
def okEvidence : RawEvidenceItem :=
  { sentiment := "positive", themes := [], claimTags := [], quote := "ok",
    sourceIndex := 0 }

/-- An environment whose very first store call (query fetch) throws. -/
def sampleEnv : PipelineEnv :=
  { queryId := "q1"
  , findQuery := Except.error "db down"
  , updateStatus := fun _ => Except.ok ()
  , storeIntent := Except.ok ()
  , parseIntentStep := Except.ok (parseIntent "q" 2025 none)
  , generateCandidatesStep := Except.ok { candidatesLen := 0 }
  , resolveStep := Except.ok ()
  , extractStep := Except.ok ()
  , ingredientStep := Except.ok ()
  , rankStep := Except.ok { top10Len := 0, candidateCount := 0 }
  , persistStep := Except.ok ()
  , searchLogCreate := Except.ok ()
  , eventLogCreate := Except.ok ()
  , durationMs := 7 }

/-! ## Theorems -/

theorem jround_nonneg {q : ℚ} (h : 0 ≤ q) : 0 ≤ jround q := by
  unfold jround
  exact Int.le_floor.mpr (by push_cast; linarith)

theorem jround_le_100 {q : ℚ} (h : q ≤ 100) : jround q ≤ 100 := by
  unfold jround
  have : ⌊q + 1 / 2⌋ < 101 := Int.floor_lt.mpr (by push_cast; linarith)
  omega

theorem jround_intCast (n : ℤ) : jround (n : ℚ) = n := by
  unfold jround
  exact Int.floor_eq_iff.mpr ⟨by push_cast; linarith, by push_cast; linarith⟩

theorem jround_err (q : ℚ) : |q - (jround q : ℚ)| ≤ 1 / 2 := by
  unfold jround
  have h1 := Int.floor_le (q + 1 / 2)
  have h2 := Int.lt_floor_add_one (q + 1 / 2)
  rw [abs_le]
  constructor <;> linarith

theorem jround_close {x y : ℚ} (h : |x - y| ≤ 1 / 2) : |jround x - jround y| ≤ 1 := by
  have hx1 := Int.floor_le (x + 1 / 2)
  have hx2 := Int.lt_floor_add_one (x + 1 / 2)
  have hy1 := Int.floor_le (y + 1 / 2)
  have hy2 := Int.lt_floor_add_one (y + 1 / 2)
  rw [abs_le] at h
  unfold jround
  rw [abs_le]
  constructor
  · by_contra hc
    push_neg at hc
    have hc2 : ⌊x + 1 / 2⌋ + 2 ≤ ⌊y + 1 / 2⌋ := by omega
    have : ((⌊x + 1 / 2⌋ : ℚ) + 2) ≤ (⌊y + 1 / 2⌋ : ℚ) := by exact_mod_cast hc2
    linarith
  · by_contra hc
    push_neg at hc
    have hc2 : ⌊y + 1 / 2⌋ + 2 ≤ ⌊x + 1 / 2⌋ := by omega
    have : ((⌊y + 1 / 2⌋ : ℚ) + 2) ≤ (⌊x + 1 / 2⌋ : ℚ) := by exact_mod_cast hc2
    linarith

theorem computeQueryFit_bounds (evidence : List ExtractedEvidence) (intent : ParsedIntent) :
    0 ≤ computeQueryFit evidence intent ∧ computeQueryFit evidence intent ≤ 100 := by
  simp only [computeQueryFit]
  split
  · norm_num
  · split
    · norm_num
    · refine ⟨le_min (by norm_num) (by positivity), min_le_left _ _⟩

theorem computeRedditEndorsement_bounds (candidate : CandidateProduct)
    (evidence : List ExtractedEvidence) :
    0 ≤ computeRedditEndorsement candidate evidence ∧
      computeRedditEndorsement candidate evidence ≤ 100 := by
  simp only [computeRedditEndorsement]
  split
  · norm_num
  · exact ⟨le_min (by norm_num)
      (add_nonneg (le_min (by norm_num) (by positivity)) (by positivity)),
      min_le_left _ _⟩

theorem computeSocialCoverage_bounds (candidate : CandidateProduct)
    (evidence : List ExtractedEvidence) :
    0 ≤ computeSocialCoverage candidate evidence ∧
      computeSocialCoverage candidate evidence ≤ 100 := by
  simp only [computeSocialCoverage]
  refine ⟨le_min (by norm_num) ?_, min_le_left _ _⟩
  have h1 : (0 : ℚ) ≤ min 40 ((evidence.length : ℚ) * 3) := le_min (by norm_num) (by positivity)
  have h2 : (0 : ℚ) ≤ min 20 ((candidate.mentionCount : ℚ) * 2) :=
    le_min (by norm_num) (by positivity)
  positivity

theorem computeConfidenceScore_bounds (candidate : CandidateProduct)
    (evidence : List ExtractedEvidence) :
    0 ≤ computeConfidenceScore candidate evidence ∧
      computeConfidenceScore candidate evidence ≤ 100 := by
  simp only [computeConfidenceScore]
  refine ⟨le_min (by norm_num) ?_, min_le_left _ _⟩
  have h1 : (0 : ℚ) ≤ min 50 ((evidence.length : ℚ) * 5) := le_min (by norm_num) (by positivity)
  have h2 : (0 : ℚ) ≤ min 30 (((jsDedup (evidence.map (fun e => e.sourceUrl))).length : ℚ) * 5) :=
    le_min (by norm_num) (by positivity)
  have h3 : (0 : ℚ) ≤ min 20 ((candidate.mentionCount : ℚ) * 2) :=
    le_min (by norm_num) (by positivity)
  positivity

theorem computeRiskScore_bounds (evidence : List ExtractedEvidence) :
    0 ≤ computeRiskScore evidence ∧ computeRiskScore evidence ≤ 100 := by
  simp only [computeRiskScore]
  split
  · norm_num
  · set share := ((evidence.filter (fun e => e.sentiment == "negative")).length : ℚ)
      / (evidence.length : ℚ) with hshare
    have hs : 0 ≤ share := by rw [hshare]; positivity
    have hup : max 0 (100 - share * 150) ≤ 100 := max_le (by norm_num) (by linarith)
    have hlo : (0 : ℚ) ≤ max 0 (100 - share * 150) := le_max_left _ _
    have h1 : 0 ≤ jround (max 0 (100 - share * 150)) := jround_nonneg hlo
    have h2 : jround (max 0 (100 - share * 150)) ≤ 100 := jround_le_100 hup
    constructor
    · exact_mod_cast h1
    · exact_mod_cast h2

/-- C2: for every candidate, evidence set and parsed intent, each of the five
score dimensions reported by computeScores (queryFit, redditEndorsement,
socialProofCoverage, riskScore, confidenceScore) is an integer in [0, 100],
the reported overall is in [0, 100], and the reported overall agrees with
round(0.30*queryFit + 0.25*redditEndorsement + 0.15*socialProofCoverage +
0.15*riskScore + 0.15*confidenceScore) recomputed from the reported dimension
values to within rounding (at most one unit, from the double rounding). -/
theorem computeScores_claim (candidate : CandidateProduct)
    (evidence : List ExtractedEvidence) (intent : ParsedIntent) :
    (0 ≤ (computeScores candidate evidence intent).queryFit ∧
      (computeScores candidate evidence intent).queryFit ≤ 100) ∧
    (0 ≤ (computeScores candidate evidence intent).redditEndorsement ∧
      (computeScores candidate evidence intent).redditEndorsement ≤ 100) ∧
    (0 ≤ (computeScores candidate evidence intent).socialProofCoverage ∧
      (computeScores candidate evidence intent).socialProofCoverage ≤ 100) ∧
    (0 ≤ (computeScores candidate evidence intent).riskScore ∧
      (computeScores candidate evidence intent).riskScore ≤ 100) ∧
    (0 ≤ (computeScores candidate evidence intent).confidenceScore ∧
      (computeScores candidate evidence intent).confidenceScore ≤ 100) ∧
    (0 ≤ (computeScores candidate evidence intent).overall ∧
      (computeScores candidate evidence intent).overall ≤ 100) ∧
    |(computeScores candidate evidence intent).overall -
        jround (((computeScores candidate evidence intent).queryFit : ℚ) * (30 / 100)
          + ((computeScores candidate evidence intent).redditEndorsement : ℚ) * (25 / 100)
          + ((computeScores candidate evidence intent).socialProofCoverage : ℚ) * (15 / 100)
          + ((computeScores candidate evidence intent).riskScore : ℚ) * (15 / 100)
          + ((computeScores candidate evidence intent).confidenceScore : ℚ) * (15 / 100))|
      ≤ 1 := by
  obtain ⟨hq0, hq1⟩ := computeQueryFit_bounds evidence intent
  obtain ⟨hr0, hr1⟩ := computeRedditEndorsement_bounds candidate evidence
  obtain ⟨hs0, hs1⟩ := computeSocialCoverage_bounds candidate evidence
  obtain ⟨hk0, hk1⟩ := computeRiskScore_bounds evidence
  obtain ⟨hc0, hc1⟩ := computeConfidenceScore_bounds candidate evidence
  set qf := computeQueryFit evidence intent with hqf
  set re := computeRedditEndorsement candidate evidence with hre
  set sc := computeSocialCoverage candidate evidence with hsc
  set rk := computeRiskScore evidence with hrk
  set cf := computeConfidenceScore candidate evidence with hcf
  have hproj : computeScores candidate evidence intent =
      { queryFit := jround qf
        redditEndorsement := jround re
        socialProofCoverage := jround sc
        riskScore := jround rk
        confidenceScore := jround cf
        overall := jround (qf * (30 / 100) + re * (25 / 100) + sc * (15 / 100)
          + rk * (15 / 100) + cf * (15 / 100)) } := rfl
  rw [hproj]
  dsimp only
  have hov0 : (0 : ℚ) ≤ qf * (30 / 100) + re * (25 / 100) + sc * (15 / 100)
      + rk * (15 / 100) + cf * (15 / 100) := by linarith
  have hov1 : qf * (30 / 100) + re * (25 / 100) + sc * (15 / 100)
      + rk * (15 / 100) + cf * (15 / 100) ≤ 100 := by linarith
  have e1 := abs_le.mp (jround_err qf)
  have e2 := abs_le.mp (jround_err re)
  have e3 := abs_le.mp (jround_err sc)
  have e4 := abs_le.mp (jround_err rk)
  have e5 := abs_le.mp (jround_err cf)
  refine ⟨⟨jround_nonneg hq0, jround_le_100 hq1⟩,
    ⟨jround_nonneg hr0, jround_le_100 hr1⟩,
    ⟨jround_nonneg hs0, jround_le_100 hs1⟩,
    ⟨jround_nonneg hk0, jround_le_100 hk1⟩,
    ⟨jround_nonneg hc0, jround_le_100 hc1⟩,
    ⟨jround_nonneg hov0, jround_le_100 hov1⟩, ?_⟩
  apply jround_close
  rw [abs_le]
  constructor <;> linarith

/-- C6: parseIntent never raises to its caller: on total LLM-call failure it
returns the full fallback (useCase = the raw query, the deterministic
fallback seed terms, inferredCategory "general"), and on a successful call
whose seedTerms is missing or has fewer than 5 entries it discards them and
returns the deterministically synthesized fallback terms. -/
theorem parseIntent_claim (rawQuery : String) (year : ℕ) :
    (parseIntent rawQuery year none =
      { intent := { useCase := rawQuery, constraints := [], mustHaves := [],
                    niceToHaves := [] }
        seedTerms := generateFallbackTerms rawQuery year
        inferredCategory := "general" }) ∧
    (∀ r : GeminiIntentResponse, ∀ ts : List String,
      r.seedTerms = some ts → ts.length < 5 →
      (parseIntent rawQuery year (some r)).seedTerms = generateFallbackTerms rawQuery year) ∧
    (∀ r : GeminiIntentResponse, r.seedTerms = none →
      (parseIntent rawQuery year (some r)).seedTerms = generateFallbackTerms rawQuery year) := by
  refine ⟨rfl, ?_, ?_⟩
  · intro r ts hts hlen
    simp [parseIntent, hts, hlen]
  · intro r hts
    simp [parseIntent, hts]

/-- Witness for C6 at a concrete query: the failure path returns the fallback
terms, and a successful response with only 2 seed terms is repaired to the
fallback terms. -/
theorem parseIntent_claim_witness :
    (parseIntent "headphones" 2025 none).seedTerms
      = generateFallbackTerms "headphones" 2025 ∧
    (parseIntent "headphones" 2025
        (some { intent := none, seedTerms := some ["a", "b"],
                inferredCategory := none })).seedTerms
      = generateFallbackTerms "headphones" 2025 := by
  constructor
  · exact congrArg IntentParserResult.seedTerms (parseIntent_claim "headphones" 2025).1
  · exact (parseIntent_claim "headphones" 2025).2.1
      { intent := none, seedTerms := some ["a", "b"], inferredCategory := none }
      ["a", "b"] rfl (by decide)

theorem withRetryAux_ok {α : Type} (f : ℕ → Except String α) (maxRetries : ℕ) :
    ∀ (j fuel attempt : ℕ) (v : α), j < fuel → attempt + fuel = maxRetries + 1 →
      (∀ i, i < j → ∃ e, f (attempt + i) = Except.error e) →
      f (attempt + j) = Except.ok v →
      withRetryAux f maxRetries attempt fuel = (Except.ok v, j + 1) := by
  intro j
  induction j with
  | zero =>
    intro fuel attempt v hj hsum hfail hok
    obtain ⟨fu, rfl⟩ : ∃ fu, fuel = fu + 1 := ⟨fuel - 1, by omega⟩
    rw [Nat.add_zero] at hok
    simp [withRetryAux, hok]
  | succ j ih =>
    intro fuel attempt v hj hsum hfail hok
    obtain ⟨fu, rfl⟩ : ∃ fu, fuel = fu + 1 := ⟨fuel - 1, by omega⟩
    obtain ⟨e, he⟩ := hfail 0 (by omega)
    rw [Nat.add_zero] at he
    have hne : ¬ attempt = maxRetries := by omega
    have hrec : withRetryAux f maxRetries (attempt + 1) fu = (Except.ok v, j + 1) := by
      apply ih fu (attempt + 1) v (by omega) (by omega)
      · intro i hi
        obtain ⟨e', he'⟩ := hfail (i + 1) (by omega)
        exact ⟨e', by rw [show attempt + 1 + i = attempt + (i + 1) from by omega]; exact he'⟩
      · rw [show attempt + 1 + j = attempt + (j + 1) from by omega]
        exact hok
    simp [withRetryAux, he, hne, hrec]

theorem withRetryAux_error {α : Type} (f : ℕ → Except String α) (maxRetries : ℕ) (e : String) :
    ∀ (fuel attempt : ℕ), attempt + fuel = maxRetries + 1 → 1 ≤ fuel →
      (∀ i, attempt ≤ i → i ≤ maxRetries → ∃ e', f i = Except.error e') →
      f maxRetries = Except.error e →
      withRetryAux f maxRetries attempt fuel = (Except.error e, fuel) := by
  intro fuel
  induction fuel with
  | zero => intro attempt hsum hfu hfail hlast; omega
  | succ fu ih =>
    intro attempt hsum hfu hfail hlast
    obtain ⟨e', he'⟩ := hfail attempt (le_refl attempt) (by omega)
    by_cases hattempt : attempt = maxRetries
    · subst hattempt
      have hfu0 : fu = 0 := by omega
      subst hfu0
      rw [hlast] at he'
      have hee : e' = e := by cases he'; rfl
      subst hee
      simp [withRetryAux, hlast]
    · have hrec : withRetryAux f maxRetries (attempt + 1) fu = (Except.error e, fu) := by
        apply ih (attempt + 1) (by omega) (by omega)
        · intro i hi1 hi2
          exact hfail i (by omega) hi2
        · exact hlast
      simp [withRetryAux, he', hattempt, hrec]

/-- C8: a wrapped operation that fails on its first k invocations and
succeeds on invocation k+1 makes withRetry (maxRetries ≥ k) return the
success value after exactly k+1 invocations; an operation that fails on
every invocation makes withRetry re-throw the final error after exactly
maxRetries+1 invocations. -/
theorem withRetry_claim {α : Type} (f g : ℕ → Except String α) (k maxRetries : ℕ)
    (v : α) (e : String) :
    (k ≤ maxRetries → (∀ i, i < k → ∃ e', f i = Except.error e') →
      f k = Except.ok v → withRetry f maxRetries = (Except.ok v, k + 1)) ∧
    ((∀ i, i ≤ maxRetries → ∃ e', g i = Except.error e') →
      g maxRetries = Except.error e →
      withRetry g maxRetries = (Except.error e, maxRetries + 1)) := by
  constructor
  · intro hk hfail hok
    unfold withRetry
    exact withRetryAux_ok f maxRetries k (maxRetries + 1) 0 v (by omega) (by omega)
      (fun i hi => by simpa using hfail i hi) (by simpa using hok)
  · intro hfail hlast
    unfold withRetry
    exact withRetryAux_error g maxRetries e (maxRetries + 1) 0 (by omega) (by omega)
      (fun i _ h2 => hfail i h2) hlast

/-- Witness for C8: an operation failing twice then succeeding, run with
maxRetries = 3, yields the value after 3 invocations; an always-failing
operation exhausts all 4 invocations and re-throws. -/
theorem withRetry_claim_witness :
    withRetry (fun i => if i < 2 then Except.error "boom" else Except.ok (42 : ℕ)) 3
      = (Except.ok 42, 3) ∧
    withRetry (fun _ => (Except.error "boom" : Except String ℕ)) 3
      = (Except.error "boom", 4) := by
  constructor
  · exact (withRetry_claim (fun i => if i < 2 then Except.error "boom" else Except.ok 42)
      (fun _ => Except.error "boom") 2 3 42 "boom").1 (by omega)
      (fun i hi => ⟨"boom", by simp [hi]⟩) (by simp)
  · exact (withRetry_claim (fun i => if i < 2 then Except.error "boom" else Except.ok 42)
      (fun _ => Except.error "boom") 2 3 42 "boom").2
      (fun i _ => ⟨"boom", rfl⟩) rfl

theorem pm_bind_apply {α β : Type} (x : PM α) (f : α → PM β) (s : List QStatus) :
    (x >>= f) s =
      match x s with
      | (Except.ok a, s') => f a s'
      | (Except.error e, s') => (Except.error e, s') := rfl

theorem pm_pure_apply {α : Type} (a : α) (s : List QStatus) :
    (pure a : PM α) s = (Except.ok a, s) := rfl

theorem logSearchM_apply (env : PipelineEnv) (s : List QStatus) :
    logSearchM env s = (Except.ok (), s) := by
  unfold logSearchM logEventM
  simp only [pmCatch, pm_bind_apply, pmLift, pm_pure_apply]
  cases env.searchLogCreate <;> cases env.eventLogCreate <;> rfl

theorem runPipelineCatch_apply (env : PipelineEnv) (e : String) (s : List QStatus) :
    runPipelineCatch env e s =
      (Except.ok { queryId := env.queryId, success := false, candidateCount := 0,
                   top10Count := 0, durationMs := env.durationMs, error := some e },
       s ++ [QStatus.failed]) := by
  unfold runPipelineCatch
  simp only [pm_bind_apply, pmSwallow, pmUpdateStatus, pm_pure_apply]
  rw [logSearchM_apply]

/-- C5: for every environment of step and store behaviors (including a
missing Query record and throwing store calls), runPipeline returns a
structured PipelineResult rather than raising; and whenever the try block
fails with error e, it returns success := false carrying e as the error
message, with a best-effort FAILED status write appended to the trace of
attempted status writes (that write's own failure is swallowed). -/
theorem runPipeline_claim (env : PipelineEnv) :
    (∃ r : PipelineResult, (runPipeline env).1 = Except.ok r) ∧
    (∀ e s', runPipelineTry env [] = (Except.error e, s') →
      runPipeline env =
        (Except.ok { queryId := env.queryId, success := false, candidateCount := 0,
                     top10Count := 0, durationMs := env.durationMs, error := some e },
         s' ++ [QStatus.failed])) := by
  constructor
  · unfold runPipeline pmCatch
    rcases htry : runPipelineTry env [] with ⟨res, s'⟩
    cases res with
    | ok r => exact ⟨r, rfl⟩
    | error e =>
      refine ⟨{ queryId := env.queryId, success := false, candidateCount := 0,
                top10Count := 0, durationMs := env.durationMs, error := some e }, ?_⟩
      show (runPipelineCatch env e s').1 = _
      rw [runPipelineCatch_apply]
  · intro e s' htry
    unfold runPipeline pmCatch
    rw [htry]
    exact runPipelineCatch_apply env e s'

/-- Witness for C5: with an environment whose query fetch throws "db down",
the pipeline swallows the failure, records the FAILED status attempt, and
returns the structured failure result. -/
theorem runPipeline_claim_witness :
    runPipeline sampleEnv =
      (Except.ok { queryId := "q1", success := false, candidateCount := 0,
                   top10Count := 0, durationMs := 7, error := some "db down" },
       [QStatus.failed]) := by
  have h := (runPipeline_claim sampleEnv).2 "db down" [] rfl
  exact h

/-- C10 counterexample: for a candidate whose key is absent from the evidence
map and an intent with no terms, the claim predicts queryFit 50, but the
code's empty-evidence check fires first and reports queryFit 20. -/
theorem missingEvidence_counterexample :
    jsMapGet [] (candKey acmeCand) = none ∧
    emptyIntent.constraints ++ emptyIntent.mustHaves ++ emptyIntent.niceToHaves = [] ∧
    (scoredOf [acmeCand] [] emptyIntent).map (fun entry => entry.scores.queryFit) = [20] ∧
    ¬ (scoredOf [acmeCand] [] emptyIntent).map (fun entry => entry.scores.queryFit) = [50] := by
  have h : (scoredOf [acmeCand] [] emptyIntent).map (fun entry => entry.scores.queryFit)
      = [jround (20 : ℚ)] := rfl
  have h20 : jround (20 : ℚ) = 20 := by rw [jround]; norm_num
  refine ⟨rfl, rfl, ?_, ?_⟩
  · rw [h, h20]
  · rw [h, h20]
    decide

/-- C10 (amended): a candidate whose key brand|model is absent from the
evidence map is scored against the empty evidence list rather than failing,
yielding the no-evidence defaults queryFit 20 (regardless of the intent's
terms), redditEndorsement 10 and riskScore 50. -/
theorem missingEvidence_defaults (candidates : List CandidateProduct)
    (evidenceMap : List (String × List ExtractedEvidence)) (intent : ParsedIntent)
    (i : ℕ) (c : CandidateProduct) (hc : candidates[i]? = some c)
    (hmiss : jsMapGet evidenceMap (candKey c) = none) :
    (scoredOf candidates evidenceMap intent)[i]? = some
      { candidate := c, scores := computeScores c [] intent, evidence := [] } ∧
    (computeScores c [] intent).queryFit = 20 ∧
    (computeScores c [] intent).redditEndorsement = 10 ∧
    (computeScores c [] intent).riskScore = 50 := by
  refine ⟨?_, ?_, ?_, ?_⟩
  · unfold scoredOf
    rw [List.getElem?_map, hc]
    simp [hmiss]
  · show jround (computeQueryFit [] intent) = 20
    rw [show computeQueryFit [] intent = 20 from rfl, jround]
    norm_num
  · show jround (computeRedditEndorsement c []) = 10
    rw [show computeRedditEndorsement c [] = 10 from rfl, jround]
    norm_num
  · show jround (computeRiskScore []) = 50
    rw [show computeRiskScore [] = 50 from rfl, jround]
    norm_num

/-- Witness for C10 (amended) at a concrete candidate and empty evidence
map. -/
theorem missingEvidence_defaults_witness :
    (scoredOf [acmeCand] [] emptyIntent)[0]? = some
      { candidate := acmeCand, scores := computeScores acmeCand [] emptyIntent,
        evidence := [] } ∧
    (computeScores acmeCand [] emptyIntent).queryFit = 20 ∧
    (computeScores acmeCand [] emptyIntent).redditEndorsement = 10 ∧
    (computeScores acmeCand [] emptyIntent).riskScore = 50 :=
  missingEvidence_defaults [acmeCand] [] emptyIntent 0 acmeCand rfl rfl

/-- C7 counterexample: an LLM response whose sourceIndex is out of range
yields an evidence item with sourceUrl "" and platform "web", which is the
url/platform of no mention in the capped relevant-mention list, so the item
does not trace to exactly one mention. -/
theorem extractForProduct_counterexample :
    ((extractForProduct acmeCand [redditMention] (some [strayEvidence])).map
        (fun e => (e.sourceUrl, e.platform))) = [("", "web")] ∧
    (([redditMention].take 20).filter (fun m => m.url == "")).length = 0 := by
  decide

/-- C7 (amended): every evidence item built by extractForProduct whose
sourceIndex is in range carries the url and platform of the mention at that
index of the capped relevant-mention list — the unique such mention when the
capped urls are distinct — while an out-of-range sourceIndex yields
sourceUrl "" and platform "web" instead of tracing to a mention. -/
theorem extractForProduct_amended (candidate : CandidateProduct)
    (mentions : List RetrievedMention) (items : List RawEvidenceItem)
    (i : ℕ) (item : RawEvidenceItem) (out : ExtractedEvidence)
    (hnodup : ((mentions.take 20).map (fun m => m.url)).Nodup)
    (hitem : items[i]? = some item)
    (hout : (extractForProduct candidate mentions (some items))[i]? = some out) :
    (∀ hin : item.sourceIndex < (mentions.take 20).length,
      out.sourceUrl = ((mentions.take 20).get ⟨item.sourceIndex, hin⟩).url ∧
      out.platform = ((mentions.take 20).get ⟨item.sourceIndex, hin⟩).platform ∧
      ∀ m ∈ mentions.take 20, m.url = out.sourceUrl →
        m = (mentions.take 20).get ⟨item.sourceIndex, hin⟩) ∧
    ((mentions.take 20).length ≤ item.sourceIndex →
      out.sourceUrl = "" ∧ out.platform = "web") := by
  unfold extractForProduct at hout
  rw [List.getElem?_map, hitem] at hout
  have hout' : out =
      { productRef := candidate.brand ++ " " ++ candidate.model
        sentiment := item.sentiment
        themes := item.themes
        claimTags := item.claimTags
        quote := jsSlice item.quote 150
        sourceUrl := (((mentions.take 20).get? item.sourceIndex).map (fun m => m.url)).getD ""
        platform :=
          (((mentions.take 20).get? item.sourceIndex).map (fun m => m.platform)).getD "web" } := by
    cases hout
    rfl
  subst hout'
  constructor
  · intro hin
    have hsome : (mentions.take 20).get? item.sourceIndex
        = some ((mentions.take 20).get ⟨item.sourceIndex, hin⟩) := List.get?_eq_get hin
    refine ⟨by rw [hsome]; rfl, by rw [hsome]; rfl, ?_⟩
    intro m hm hurl
    rw [hsome] at hurl
    exact List.inj_on_of_nodup_map hnodup hm
      (List.get_mem _ _ hin) hurl
  · intro hge
    have hnone : (mentions.take 20).get? item.sourceIndex = none :=
      List.get?_eq_none.mpr hge
    rw [hnone]
    exact ⟨rfl, rfl⟩

/-- Witness for C7 (amended): a concrete in-range extraction traces to the
unique capped mention with its url and platform. -/
theorem extractForProduct_amended_witness :
    ∃ out : ExtractedEvidence,
      (extractForProduct acmeCand [redditMention] (some [okEvidence]))[0]? = some out ∧
      out.sourceUrl = "https://a" ∧ out.platform = "reddit" ∧
      ∀ m ∈ [redditMention].take 20, m.url = out.sourceUrl → m = redditMention := by
  refine ⟨{ productRef := "Acme X1", sentiment := "positive", themes := [],
            claimTags := [], quote := "ok", sourceUrl := "https://a",
            platform := "reddit" }, ?_, rfl, rfl, ?_⟩
  · decide
  · have h := extractForProduct_amended acmeCand [redditMention] [okEvidence] 0 okEvidence
      { productRef := "Acme X1", sentiment := "positive", themes := [],
        claimTags := [], quote := "ok", sourceUrl := "https://a",
        platform := "reddit" }
      (by decide) rfl (by decide)
    intro m hm hurl
    exact h.1 (by decide) |>.2.2 m hm hurl

theorem length_filter_mono {α : Type} (l : List α) (p q : α → Bool)
    (h : ∀ a ∈ l, p a = true → q a = true) :
    (l.filter p).length ≤ (l.filter q).length := by
  induction l with
  | nil => simp
  | cons a l ih =>
    have ih' := ih (fun a ha => h a (List.mem_cons_of_mem _ ha))
    by_cases hp : p a = true
    · have hq := h a (List.mem_cons_self _ _) hp
      simp [List.filter_cons, hp, hq]
      omega
    · cases hq : q a <;> simp [List.filter_cons, hp, hq] <;> omega

theorem filter_window_compose (w : ℤ) (P : List ℤ) (now' now : ℤ) (h : now' ≤ now) :
    (P.filter (fun p => now' - p < w)).filter (fun p => now - p < w)
      = P.filter (fun p => now - p < w) := by
  induction P with
  | nil => rfl
  | cons a P ih =>
    by_cases h1 : now - a < w
    · have h2 : now' - a < w := by omega
      simp [List.filter_cons, h1, h2, ih]
    · by_cases h2 : now' - a < w <;> simp [List.filter_cons, h1, h2, ih]

theorem rlRun_eq_spec (maxRequests : ℕ) (windowMs : ℤ) (hw : 0 < windowMs) :
    ∀ (ts : List ℤ) (P : List ℤ) (now₀ : ℤ),
      (∀ p ∈ P, p ≤ now₀) → List.Chain' (· ≤ ·) (now₀ :: ts) →
      rlResults maxRequests windowMs (P.filter (fun p => now₀ - p < windowMs)) ts
          = rlSpecResults maxRequests windowMs P ts ∧
      rlPermitted maxRequests windowMs (P.filter (fun p => now₀ - p < windowMs)) ts
          = rlSpecPermitted maxRequests windowMs P ts := by
  intro ts
  induction ts with
  | nil => intro P now₀ hP hchain; exact ⟨rfl, rfl⟩
  | cons t ts ih =>
    intro P now₀ hP hchain
    have hnow : now₀ ≤ t := (List.chain'_cons.mp hchain).1
    have hchain' : List.Chain' (· ≤ ·) (t :: ts) := (List.chain'_cons.mp hchain).2
    have hprune : (P.filter (fun p => now₀ - p < windowMs)).filter
        (fun p => t - p < windowMs) = P.filter (fun p => t - p < windowMs) :=
      filter_window_compose windowMs P now₀ t hnow
    by_cases hcond : (P.filter (fun p => t - p < windowMs)).length < maxRequests
    · have hstep : rlStep maxRequests windowMs
          (P.filter (fun p => now₀ - p < windowMs)) t
          = (true, P.filter (fun p => t - p < windowMs) ++ [t]) := by
        unfold rlStep
        rw [hprune, if_neg (by omega)]
      have hlog : P.filter (fun p => t - p < windowMs) ++ [t]
          = (P ++ [t]).filter (fun p => t - p < windowMs) := by
        rw [List.filter_append]
        congr 1
        simp only [List.filter_cons, List.filter_nil]
        rw [if_pos (by simpa using by omega : decide (t - t < windowMs) = true)]
      have hP' : ∀ p ∈ P ++ [t], p ≤ t := by
        intro p hp
        rcases List.mem_append.mp hp with hmem | hmem
        · exact le_trans (hP p hmem) hnow
        · simp only [List.mem_singleton] at hmem
          omega
      obtain ⟨ihr, ihp⟩ := ih (P ++ [t]) t hP' hchain'
      constructor
      · simp only [rlResults, hstep, hlog, ihr, rlSpecResults, if_pos hcond]
      · simp only [rlPermitted, hstep, hlog, ihp, rlSpecPermitted, if_pos hcond,
          if_true, List.singleton_append]
    · have hstep : rlStep maxRequests windowMs
          (P.filter (fun p => now₀ - p < windowMs)) t
          = (false, P.filter (fun p => t - p < windowMs)) := by
        unfold rlStep
        rw [hprune, if_pos (by omega)]
      have hP' : ∀ p ∈ P, p ≤ t := fun p hp => le_trans (hP p hp) hnow
      obtain ⟨ihr, ihp⟩ := ih P t hP' hchain'
      constructor
      · simp only [rlResults, hstep, ihr, rlSpecResults, if_neg hcond]
      · simp [rlPermitted, hstep, ihp, rlSpecPermitted, if_neg hcond]

theorem rlSpec_get (maxRequests : ℕ) (windowMs : ℤ) :
    ∀ (ts : List ℤ) (P : List ℤ) (n : ℕ) (t : ℤ), ts[n]? = some t →
      ((rlSpecResults maxRequests windowMs P ts)[n]? = some true ↔
        ((P ++ rlSpecPermitted maxRequests windowMs P (ts.take n)).filter
          (fun p => t - p < windowMs)).length < maxRequests) := by
  intro ts
  induction ts with
  | nil => intro P n t h; simp at h
  | cons t₀ ts ih =>
    intro P n t h
    cases n with
    | zero =>
      simp only [List.getElem?_cons_zero, Option.some_inj] at h
      subst h
      by_cases hcond : (P.filter (fun p => t₀ - p < windowMs)).length < maxRequests
      · simp [rlSpecResults, rlSpecPermitted, hcond]
      · simp [rlSpecResults, rlSpecPermitted, hcond]
    | succ n =>
      have h' : ts[n]? = some t := by simpa using h
      by_cases hcond : (P.filter (fun p => t₀ - p < windowMs)).length < maxRequests
      · have hrec := ih (P ++ [t₀]) n t h'
        simp only [rlSpecResults, rlSpecPermitted, hcond, if_pos, List.take_succ_cons,
          List.getElem?_cons_succ]
        rw [show P ++ t₀ :: rlSpecPermitted maxRequests windowMs (P ++ [t₀]) (ts.take n)
            = (P ++ [t₀]) ++ rlSpecPermitted maxRequests windowMs (P ++ [t₀]) (ts.take n) by
          simp]
        exact hrec
      · have hrec := ih P n t h'
        simp only [rlSpecResults, rlSpecPermitted, hcond, if_neg, List.take_succ_cons,
          List.getElem?_cons_succ, ite_false]
        exact hrec

theorem rlSpec_window_bound (maxRequests : ℕ) (windowMs : ℤ) :
    ∀ (ts P : List ℤ),
      ts.Pairwise (· ≤ ·) → (∀ p ∈ P, ∀ t ∈ ts, p ≤ t) →
      (∀ T : ℤ, (P.filter (fun p => T - windowMs < p ∧ p ≤ T)).length ≤ maxRequests) →
      ∀ T : ℤ,
        (((P ++ rlSpecPermitted maxRequests windowMs P ts).filter
          (fun p => T - windowMs < p ∧ p ≤ T)).length ≤ maxRequests) := by
  intro ts
  induction ts with
  | nil => intro P hpair hPt hgood T; simpa using hgood T
  | cons t ts ih =>
    intro P hpair hPt hgood T
    have hpair' : ts.Pairwise (· ≤ ·) := hpair.of_cons
    have hle : ∀ u ∈ ts, t ≤ u := fun u hu => (List.pairwise_cons.mp hpair).1 u hu
    by_cases hcond : (P.filter (fun p => t - p < windowMs)).length < maxRequests
    · have hgood' : ∀ T' : ℤ,
          (((P ++ [t]).filter (fun p => T' - windowMs < p ∧ p ≤ T')).length
            ≤ maxRequests) := by
        intro T'
        rw [List.filter_append]
        by_cases hT : T' - windowMs < t ∧ t ≤ T'
        · have hsub : (P.filter (fun p => T' - windowMs < p ∧ p ≤ T')).length
              ≤ (P.filter (fun p => t - p < windowMs)).length := by
            apply length_filter_mono
            intro a _ ha
            simp only [decide_eq_true_eq] at ha ⊢
            omega
          have ht1 : ([t].filter (fun p => T' - windowMs < p ∧ p ≤ T')).length = 1 := by
            simp [List.filter_cons, hT]
          rw [List.length_append, ht1]
          omega
        · have ht0 : ([t].filter (fun p => T' - windowMs < p ∧ p ≤ T')).length = 0 := by
            simp [List.filter_cons, hT]
          rw [List.length_append, ht0]
          simpa using hgood T'
      have hPt' : ∀ p ∈ P ++ [t], ∀ u ∈ ts, p ≤ u := by
        intro p hp u hu
        rcases List.mem_append.mp hp with hmem | hmem
        · exact hPt p hmem u (List.mem_cons_of_mem _ hu)
        · simp only [List.mem_singleton] at hmem
          subst hmem
          exact hle u hu
      have hrec := ih (P ++ [t]) hpair' hPt' hgood' T
      simp only [rlSpecPermitted, hcond, if_pos]
      rw [show P ++ t :: rlSpecPermitted maxRequests windowMs (P ++ [t]) ts
          = (P ++ [t]) ++ rlSpecPermitted maxRequests windowMs (P ++ [t]) ts by simp]
      exact hrec
    · have hrec := ih P hpair' (fun p hp u hu => hPt p hp u (List.mem_cons_of_mem _ hu)) hgood T
      simp only [rlSpecPermitted, hcond, if_neg, ite_false]
      exact hrec

/-- C9: for a positive window and monotone call timestamps, checkRateLimit
(i) permits at most maxRequests calls whose timestamps fall within any
half-open window (T - windowMs, T], and (ii) permits a call exactly when
fewer than maxRequests previously permitted calls lie within windowMs of it,
so a new call is permitted as soon as the oldest permitted call has fallen
out of the current window. -/
theorem checkRateLimit_claim (maxRequests : ℕ) (windowMs : ℤ) (ts : List ℤ)
    (hw : 0 < windowMs) (hmono : ts.Pairwise (· ≤ ·)) :
    (∀ T : ℤ,
      ((rlPermitted maxRequests windowMs [] ts).filter
        (fun p => T - windowMs < p ∧ p ≤ T)).length ≤ maxRequests) ∧
    (∀ (n : ℕ) (t : ℤ), ts[n]? = some t →
      ((rlResults maxRequests windowMs [] ts)[n]? = some true ↔
        ((rlPermitted maxRequests windowMs [] (ts.take n)).filter
          (fun p => t - p < windowMs)).length < maxRequests)) := by
  have hperm : ∀ l : List ℤ, l.Pairwise (· ≤ ·) →
      rlPermitted maxRequests windowMs [] l
        = rlSpecPermitted maxRequests windowMs [] l := by
    intro l hl
    cases l with
    | nil => rfl
    | cons a l' =>
      have hchain : List.Chain' (· ≤ ·) (a :: a :: l') :=
        List.chain'_cons.mpr ⟨le_refl a, hl.chain'⟩
      have h := (rlRun_eq_spec maxRequests windowMs hw (a :: l') [] a
        (by simp) hchain).2
      simpa using h
  have hres : rlResults maxRequests windowMs [] ts
      = rlSpecResults maxRequests windowMs [] ts := by
    cases ts with
    | nil => rfl
    | cons a l' =>
      have hchain : List.Chain' (· ≤ ·) (a :: a :: l') :=
        List.chain'_cons.mpr ⟨le_refl a, hmono.chain'⟩
      have h := (rlRun_eq_spec maxRequests windowMs hw (a :: l') [] a
        (by simp) hchain).1
      simpa using h
  constructor
  · intro T
    rw [hperm ts hmono]
    have h := rlSpec_window_bound maxRequests windowMs ts [] hmono
      (by simp) (by simp) T
    simpa using h
  · intro n t hnt
    rw [hres, hperm (ts.take n) (List.Pairwise.sublist (List.take_sublist n ts) hmono)]
    have h := rlSpec_get maxRequests windowMs ts [] n t hnt
    simpa using h

/-- Witness for C9 with maxRequests 1, windowMs 50, calls at 0, 10, 60: at
most one permitted call lies in the window (10, 60], and the call at 60 is
permitted because the only previously permitted call (at 0) has fallen out of
its window. -/
theorem checkRateLimit_claim_witness :
    (((rlPermitted 1 50 [] [0, 10, 60]).filter
      (fun p => (60 : ℤ) - 50 < p ∧ p ≤ 60)).length ≤ 1) ∧
    ((rlResults 1 50 [] [0, 10, 60])[2]? = some true ↔
      ((rlPermitted 1 50 [] ([0, 10, 60].take 2)).filter
        (fun p => (60 : ℤ) - p < 50)).length < 1) := by
  have h := checkRateLimit_claim 1 50 [0, 10, 60] (by decide) (by decide)
  exact ⟨h.1 60, h.2 2 60 rfl⟩

/-- C4 counterexample: the phase-1-only path (3 candidates merging to counts
[5, 8]) and the phase-2 LLM-failure path (22 candidates fuzzy-merging to 21
groups with counts [2, 1, ..., 1, 2]) both return output that is not sorted
by mentionCount descending, because fuzzyMerge emits groups in
first-appearance order and those paths never sort. -/
theorem resolveEntities_sorted_counterexample :
    ¬ ((resolveEntities smallUnsorted none).map
        (fun c => c.mentionCount)).Sorted (· ≥ ·) ∧
    ¬ ((resolveEntities unsortedBig none).map
        (fun c => c.mentionCount)).Sorted (· ≥ ·) ∧
    20 < (fuzzyMerge unsortedBig).length := by
  decide

theorem sortByMentionDesc_sorted (l : List CandidateProduct) :
    ((sortByMentionDesc l).map (fun c => c.mentionCount)).Sorted (· ≥ ·) := by
  unfold sortByMentionDesc
  haveI : IsTotal CandidateProduct (fun a b => b.mentionCount ≤ a.mentionCount) :=
    ⟨fun a b => le_total b.mentionCount a.mentionCount⟩
  haveI : IsTrans CandidateProduct (fun a b => b.mentionCount ≤ a.mentionCount) :=
    ⟨fun _ _ _ hab hbc => le_trans hbc hab⟩
  have hs := List.sorted_insertionSort (fun a b => b.mentionCount ≤ a.mentionCount) l
  exact List.pairwise_map.mpr hs

/-- C4 (amended): resolveEntities output is sorted by mentionCount descending
on the phase-2 success path; on the LLM-failure path and on the
phase-1-only path it is the fuzzy-merge output unchanged, in group-creation
order, which need not be sorted. -/
theorem resolveEntities_sorted_amended (candidates : List CandidateProduct)
    (groups : List MergeGroupSpec) :
    (1 < candidates.length → 20 < (fuzzyMerge candidates).length →
      ((resolveEntities candidates (some groups)).map
        (fun c => c.mentionCount)).Sorted (· ≥ ·)) ∧
    (1 < candidates.length →
      resolveEntities candidates none = fuzzyMerge candidates) ∧
    (1 < candidates.length → (fuzzyMerge candidates).length ≤ 20 →
      ∀ resp, resolveEntities candidates resp = fuzzyMerge candidates) := by
  refine ⟨?_, ?_, ?_⟩
  · intro hlen hbig
    unfold resolveEntities
    rw [if_neg (by omega), if_pos hbig]
    unfold geminiResolve
    apply sortByMentionDesc_sorted
  · intro hlen
    unfold resolveEntities
    rw [if_neg (by omega)]
    by_cases hbig : 20 < (fuzzyMerge candidates).length
    · rw [if_pos hbig]
      rfl
    · rw [if_neg hbig]
  · intro hlen hsmall resp
    unfold resolveEntities
    rw [if_neg (by omega), if_neg (by omega)]

/-- Witness for C4 (amended): 21 pairwise-dissimilar candidates trigger phase
2; with an LLM response the output is sorted, and with a failed LLM call the
fuzzy-merge result is returned unchanged. -/
theorem resolveEntities_sorted_amended_witness :
    ((resolveEntities distinctCands (some [{ canonicalIndex := 0, mergeIndices := [1] }])).map
      (fun c => c.mentionCount)).Sorted (· ≥ ·) ∧
    resolveEntities distinctCands none = fuzzyMerge distinctCands := by
  have h := resolveEntities_sorted_amended distinctCands
    [{ canonicalIndex := 0, mergeIndices := [1] }]
  exact ⟨h.1 (by decide) (by decide), h.2.1 (by decide)⟩

theorem uSumAux_nil (l : List CandidateProduct) : ∀ i, uSumAux [] i l = sumMentions l := by
  induction l with
  | nil => intro i; rfl
  | cons c cs ih =>
    intro i
    simp [uSumAux, sumMentions, ih (i + 1)]

theorem uSumAux_set (l : List CandidateProduct) :
    ∀ (i j : ℕ) (v c : CandidateProduct) (merged : List ℕ),
      l.get? j = some c → (i + j) ∉ merged →
      uSumAux merged i (l.set j v) + c.mentionCount
        = uSumAux merged i l + v.mentionCount := by
  induction l with
  | nil => intro i j v c merged hc _; simp at hc
  | cons a l ih =>
    intro i j v c merged hc hnm
    cases j with
    | zero =>
      simp only [List.get?_cons_zero, Option.some_inj] at hc
      subst hc
      rw [Nat.add_zero] at hnm
      simp only [List.set_cons_zero, uSumAux, if_neg hnm]
      omega
    | succ j =>
      simp only [List.get?_cons_succ] at hc
      have := ih (i + 1) j v c merged hc (by
        rw [show i + 1 + j = i + (j + 1) from by omega]; exact hnm)
      simp only [List.set_cons_succ, uSumAux]
      omega

theorem uSumAux_append_lt (l : List CandidateProduct) :
    ∀ (i idx : ℕ) (merged : List ℕ), idx < i →
      uSumAux (merged ++ [idx]) i l = uSumAux merged i l := by
  induction l with
  | nil => intro i idx merged h; rfl
  | cons a l ih =>
    intro i idx merged h
    have hmem : (i ∈ merged ++ [idx]) ↔ i ∈ merged := by
      have hne : i ≠ idx := by omega
      simp [hne]
    simp only [uSumAux, ih (i + 1) idx merged (by omega)]
    rw [if_congr hmem rfl rfl]

theorem uSumAux_append (l : List CandidateProduct) :
    ∀ (i j : ℕ) (c : CandidateProduct) (merged : List ℕ),
      l.get? j = some c → (i + j) ∉ merged →
      uSumAux (merged ++ [i + j]) i l + c.mentionCount = uSumAux merged i l := by
  induction l with
  | nil => intro i j c merged hc _; simp at hc
  | cons a l ih =>
    intro i j c merged hc hnm
    cases j with
    | zero =>
      simp only [List.get?_cons_zero, Option.some_inj] at hc
      subst hc
      rw [Nat.add_zero] at hnm ⊢
      have hmem : i ∈ merged ++ [i] := by simp
      simp only [uSumAux, if_pos hmem, if_neg hnm,
        uSumAux_append_lt l (i + 1) i merged (by omega)]
      omega
    | succ j =>
      simp only [List.get?_cons_succ] at hc
      have hshift : i + 1 + j = i + (j + 1) := by omega
      have hrec := ih (i + 1) j c merged hc (by rw [hshift]; exact hnm)
      rw [hshift] at hrec
      have hmem : (i ∈ merged ++ [i + (j + 1)]) ↔ i ∈ merged := by
        have hne : i ≠ i + (j + 1) := by omega
        simp [hne]
      simp only [uSumAux]
      rw [if_congr hmem rfl rfl]
      omega

theorem applyOne_fold (canIdx : ℕ) :
    ∀ (idxs : List ℕ) (lst : List CandidateProduct) (m : List ℕ),
      canIdx < lst.length → canIdx ∉ m → (∀ i ∈ idxs, i ∉ m) →
      idxs.Nodup → canIdx ∉ idxs →
      ((idxs.foldl (applyOne canIdx) (lst, m)).1.length = lst.length ∧
       uSumAux (idxs.foldl (applyOne canIdx) (lst, m)).2 0
           (idxs.foldl (applyOne canIdx) (lst, m)).1
         = uSumAux m 0 lst ∧
       (∀ x ∈ (idxs.foldl (applyOne canIdx) (lst, m)).2, x ∈ m ∨ x ∈ idxs)) := by
  intro idxs
  induction idxs with
  | nil => intro lst m _ _ _ _ _; exact ⟨rfl, rfl, fun x hx => Or.inl hx⟩
  | cons idx idxs ih =>
    intro lst m hcan hcm hnm hnodup hcni
    have hne : ¬ idx = canIdx := fun h => hcni (h ▸ List.mem_cons_self idx idxs)
    cases hdup : lst.get? idx with
    | none =>
      have happ : applyOne canIdx (lst, m) idx = (lst, m) := by
        unfold applyOne
        rw [if_neg hne]
        simp only [hdup]
      rw [List.foldl_cons, happ]
      obtain ⟨h1, h2, h3⟩ := ih lst m hcan hcm (fun i hi => hnm i (List.mem_cons_of_mem _ hi))
        (List.Nodup.of_cons hnodup) (fun h => hcni (List.mem_cons_of_mem _ h))
      exact ⟨h1, h2, fun x hx => (h3 x hx).imp id (List.mem_cons_of_mem _)⟩
    | some dup =>
      cases hcano : lst.get? canIdx with
      | none =>
        exfalso
        exact absurd (List.get?_eq_none.mp hcano) (by omega)
      | some canonical =>
        have happ : applyOne canIdx (lst, m) idx =
            (lst.set canIdx
              { canonical with
                mentionCount := canonical.mentionCount + dup.mentionCount,
                sources := jsDedup (canonical.sources ++ dup.sources) },
             m ++ [idx]) := by
          unfold applyOne
          rw [if_neg hne]
          simp only [hdup, hcano]
        have hidxlt : idx < lst.length := by
          by_contra hge
          rw [List.get?_eq_none.mpr (by omega)] at hdup
          exact Option.noConfusion hdup
        rw [List.foldl_cons, happ]
        set newC : CandidateProduct :=
          { canonical with
            mentionCount := canonical.mentionCount + dup.mentionCount,
            sources := jsDedup (canonical.sources ++ dup.sources) } with hnewC
        have hlen' : (lst.set canIdx newC).length = lst.length := List.length_set lst canIdx newC
        have hdup' : (lst.set canIdx newC).get? idx = some dup := by
          rw [List.get?_set_ne newC lst (show canIdx ≠ idx from fun h => hne h.symm)]
          exact hdup
        have hsum1 : uSumAux (m ++ [idx]) 0 (lst.set canIdx newC) + dup.mentionCount
            = uSumAux m 0 (lst.set canIdx newC) := by
          have := uSumAux_append (lst.set canIdx newC) 0 idx dup (m)
            (by simpa using hdup') (by simpa using hnm idx (List.mem_cons_self _ _))
          simpa using this
        have hsum2 : uSumAux m 0 (lst.set canIdx newC) + canonical.mentionCount
            = uSumAux m 0 lst + newC.mentionCount := by
          have := uSumAux_set lst 0 canIdx newC canonical m (by simpa using hcano)
            (by simpa using hcm)
          simpa using this
        have hsum : uSumAux (m ++ [idx]) 0 (lst.set canIdx newC) = uSumAux m 0 lst := by
          have hnewcount : newC.mentionCount = canonical.mentionCount + dup.mentionCount := rfl
          omega
        have hrec := ih (lst.set canIdx newC) (m ++ [idx])
          (by omega)
          (by
            intro hmem
            rcases List.mem_append.mp hmem with h | h
            · exact hcm h
            · simp only [List.mem_singleton] at h
              exact hne h.symm)
          (by
            intro i hi hmem
            rcases List.mem_append.mp hmem with h | h
            · exact hnm i (List.mem_cons_of_mem _ hi) h
            · simp only [List.mem_singleton] at h
              subst h
              exact (List.nodup_cons.mp hnodup).1 hi)
          (List.Nodup.of_cons hnodup)
          (fun h => hcni (List.mem_cons_of_mem _ h))
        refine ⟨by rw [hrec.1, hlen'], ?_, ?_⟩
        · rw [hrec.2.1, hsum]
        · intro x hx
          rcases hrec.2.2 x hx with h | h
          · rcases List.mem_append.mp h with h2 | h2
            · exact Or.inl h2
            · simp only [List.mem_singleton] at h2
              exact Or.inr (h2 ▸ List.mem_cons_self _ _)
          · exact Or.inr (List.mem_cons_of_mem _ h)

theorem applyGroup_fold :
    ∀ (gs : List MergeGroupSpec) (lst : List CandidateProduct) (m : List ℕ),
      (gs.flatMap (fun g => g.mergeIndices)).Nodup →
      (∀ g ∈ gs, ∀ i ∈ g.mergeIndices, i ∉ m) →
      (∀ g ∈ gs, g.canonicalIndex ∉ m) →
      (∀ g ∈ gs, ∀ g' ∈ gs, ∀ i ∈ g.mergeIndices, i ≠ g'.canonicalIndex) →
      ((gs.foldl applyGroup (lst, m)).1.length = lst.length ∧
       uSumAux (gs.foldl applyGroup (lst, m)).2 0 (gs.foldl applyGroup (lst, m)).1
         = uSumAux m 0 lst) := by
  intro gs
  induction gs with
  | nil => intro lst m _ _ _ _; exact ⟨rfl, rfl⟩
  | cons g gs ih =>
    intro lst m hnodup hm hcm hdisj
    have hnodup' : (gs.flatMap (fun g => g.mergeIndices)).Nodup := by
      have : (g.mergeIndices ++ gs.flatMap (fun g => g.mergeIndices)).Nodup := by
        simpa [List.flatMap_cons] using hnodup
      exact this.of_append_right
    have hdisjlists : g.mergeIndices.Disjoint (gs.flatMap (fun g => g.mergeIndices)) := by
      have : (g.mergeIndices ++ gs.flatMap (fun g => g.mergeIndices)).Nodup := by
        simpa [List.flatMap_cons] using hnodup
      exact List.disjoint_of_nodup_append this
    rw [List.foldl_cons]
    cases hcano : lst.get? g.canonicalIndex with
    | none =>
      have happ : applyGroup (lst, m) g = (lst, m) := by
        unfold applyGroup
        simp only [hcano]
      rw [happ]
      exact ih lst m hnodup'
        (fun g' hg' i hi => hm g' (List.mem_cons_of_mem _ hg') i hi)
        (fun g' hg' => hcm g' (List.mem_cons_of_mem _ hg'))
        (fun g1 h1 g2 h2 i hi =>
          hdisj g1 (List.mem_cons_of_mem _ h1) g2 (List.mem_cons_of_mem _ h2) i hi)
    | some canonical =>
      have hcanlt : g.canonicalIndex < lst.length := by
        rcases List.get?_eq_some.mp hcano with ⟨h, _⟩
        exact h
      have happ : applyGroup (lst, m) g
          = g.mergeIndices.foldl (applyOne g.canonicalIndex) (lst, m) := by
        unfold applyGroup
        simp only [hcano]
      rw [happ]
      obtain ⟨k1, k2, k3⟩ := applyOne_fold g.canonicalIndex g.mergeIndices lst m
        hcanlt (hcm g (List.mem_cons_self _ _))
        (hm g (List.mem_cons_self _ _))
        (by
          have : (g.mergeIndices ++ gs.flatMap (fun g => g.mergeIndices)).Nodup := by
            simpa [List.flatMap_cons] using hnodup
          exact this.of_append_left)
        (fun h => hdisj g (List.mem_cons_self _ _) g (List.mem_cons_self _ _)
          g.canonicalIndex h rfl)
      set st1 := g.mergeIndices.foldl (applyOne g.canonicalIndex) (lst, m) with hst1
      obtain ⟨r1, r2⟩ := ih st1.1 st1.2 hnodup'
        (by
          intro g' hg' i hi hmem
          rcases k3 i hmem with h | h
          · exact hm g' (List.mem_cons_of_mem _ hg') i hi h
          · exact hdisjlists h (List.mem_flatMap.mpr ⟨g', hg', hi⟩))
        (by
          intro g' hg' hmem
          rcases k3 g'.canonicalIndex hmem with h | h
          · exact hcm g' (List.mem_cons_of_mem _ hg') h
          · exact hdisj g (List.mem_cons_self _ _) g' (List.mem_cons_of_mem _ hg')
              g'.canonicalIndex h rfl)
        (fun g1 h1 g2 h2 i hi =>
          hdisj g1 (List.mem_cons_of_mem _ h1) g2 (List.mem_cons_of_mem _ h2) i hi)
      exact ⟨by rw [r1, k1], by rw [r2, k2]⟩

theorem sumMentions_append (a b : List CandidateProduct) :
    sumMentions (a ++ b) = sumMentions a + sumMentions b := by
  simp [sumMentions]

theorem sumMentions_cons (c : CandidateProduct) (l : List CandidateProduct) :
    sumMentions (c :: l) = c.mentionCount + sumMentions l := by
  simp [sumMentions]

theorem filterIdx_sum_aux (merged : List ℕ) :
    ∀ (l : List CandidateProduct) (i : ℕ),
      sumMentions (((List.enumFrom i l).filter (fun p => !(decide (p.1 ∈ merged)))).map
        (fun p => p.2)) = uSumAux merged i l := by
  intro l
  induction l with
  | nil => intro i; rfl
  | cons c cs ih =>
    intro i
    show sumMentions ((((i, c) :: List.enumFrom (i + 1) cs).filter
      (fun p => !(decide (p.1 ∈ merged)))).map (fun p => p.2)) = _
    by_cases hi : i ∈ merged
    · rw [List.filter_cons, if_neg (by simp [hi]), ih (i + 1)]
      simp only [uSumAux, if_pos hi]
      omega
    · rw [List.filter_cons, if_pos (by simp [hi]), List.map_cons, sumMentions_cons,
        ih (i + 1)]
      simp only [uSumAux, if_neg hi]

theorem filterIdx_sum (l : List CandidateProduct) (merged : List ℕ) :
    sumMentions (filterIdx l merged) = uSumAux merged 0 l :=
  filterIdx_sum_aux merged l 0

theorem filterIdx_length_le (l : List CandidateProduct) (merged : List ℕ) :
    (filterIdx l merged).length ≤ l.length := by
  unfold filterIdx
  rw [List.length_map]
  calc (l.enum.filter (fun p => !(decide (p.1 ∈ merged)))).length
      ≤ l.enum.length := List.length_filter_le _ _
    _ = l.length := List.enum_length

theorem sumMentions_take_drop (l : List CandidateProduct) (n : ℕ) :
    sumMentions (l.take n) + sumMentions (l.drop n) = sumMentions l := by
  unfold sumMentions
  rw [List.map_take, List.map_drop]
  exact List.sum_take_add_sum_drop _ n

theorem sortByMentionDesc_sum (l : List CandidateProduct) :
    sumMentions (sortByMentionDesc l) = sumMentions l := by
  unfold sumMentions sortByMentionDesc
  exact ((List.perm_insertionSort (fun a b => b.mentionCount ≤ a.mentionCount) l).map
    (fun p => p.mentionCount)).sum_eq

theorem sortByMentionDesc_length (l : List CandidateProduct) :
    (sortByMentionDesc l).length = l.length :=
  (List.perm_insertionSort _ l).length_eq

theorem mergeGroup_count (g : CandidateProduct × List CandidateProduct) :
    (mergeGroup g).mentionCount = sumMentions (groupMembers g) := by
  show ((sortByMentionDesc (groupMembers g)).map (fun p => p.mentionCount)).sum = _
  exact sortByMentionDesc_sum (groupMembers g)

theorem addToGroups_flat_sum (c : CandidateProduct) :
    ∀ gs : List (CandidateProduct × List CandidateProduct),
      sumMentions ((addToGroups gs c).flatMap groupMembers)
        = sumMentions (gs.flatMap groupMembers) + c.mentionCount := by
  intro gs
  induction gs with
  | nil => simp [addToGroups, groupMembers, sumMentions]
  | cons g rest ih =>
    unfold addToGroups
    by_cases hsim : isSimilar (normalizeName c.brand c.model)
        (normalizeName g.1.brand g.1.model)
    · rw [if_pos hsim]
      simp only [List.flatMap_cons, sumMentions_append, groupMembers,
        sumMentions_cons, sumMentions_append]
      simp [sumMentions]
      omega
    · rw [if_neg hsim]
      simp only [List.flatMap_cons, sumMentions_append, ih]
      omega

theorem addToGroups_flat_length (c : CandidateProduct) :
    ∀ gs : List (CandidateProduct × List CandidateProduct),
      ((addToGroups gs c).flatMap groupMembers).length
        = (gs.flatMap groupMembers).length + 1 := by
  intro gs
  induction gs with
  | nil => simp [addToGroups, groupMembers]
  | cons g rest ih =>
    unfold addToGroups
    by_cases hsim : isSimilar (normalizeName c.brand c.model)
        (normalizeName g.1.brand g.1.model)
    · rw [if_pos hsim]
      show ((g.1 :: (g.2 ++ [c])) ++ rest.flatMap groupMembers).length
        = ((g.1 :: g.2) ++ rest.flatMap groupMembers).length + 1
      simp only [List.length_append, List.length_cons, List.length_nil]
      omega
    · rw [if_neg hsim]
      simp only [List.flatMap_cons, List.length_append, ih]
      omega

theorem groups_le_flat :
    ∀ gs : List (CandidateProduct × List CandidateProduct),
      gs.length ≤ (gs.flatMap groupMembers).length := by
  intro gs
  induction gs with
  | nil => simp
  | cons g rest ih =>
    show rest.length + 1 ≤ (groupMembers g ++ rest.flatMap groupMembers).length
    rw [List.length_append]
    have hg : 1 ≤ (groupMembers g).length := by simp [groupMembers]
    omega

theorem foldl_flat_sum :
    ∀ (cs : List CandidateProduct) (gs : List (CandidateProduct × List CandidateProduct)),
      sumMentions ((cs.foldl addToGroups gs).flatMap groupMembers)
        = sumMentions (gs.flatMap groupMembers) + sumMentions cs := by
  intro cs
  induction cs with
  | nil => intro gs; simp [sumMentions]
  | cons c cs ih =>
    intro gs
    rw [List.foldl_cons, ih (addToGroups gs c), addToGroups_flat_sum c gs,
      sumMentions_cons]
    omega

theorem foldl_flat_length :
    ∀ (cs : List CandidateProduct) (gs : List (CandidateProduct × List CandidateProduct)),
      ((cs.foldl addToGroups gs).flatMap groupMembers).length
        = (gs.flatMap groupMembers).length + cs.length := by
  intro cs
  induction cs with
  | nil => intro gs; simp
  | cons c cs ih =>
    intro gs
    rw [List.foldl_cons, ih (addToGroups gs c), addToGroups_flat_length c gs,
      List.length_cons]
    omega

theorem map_mergeGroup_sum :
    ∀ gs : List (CandidateProduct × List CandidateProduct),
      sumMentions (gs.map mergeGroup) = sumMentions (gs.flatMap groupMembers) := by
  intro gs
  induction gs with
  | nil => rfl
  | cons g rest ih =>
    simp only [List.map_cons, List.flatMap_cons, sumMentions_cons, sumMentions_append,
      mergeGroup_count, ih]

theorem fuzzyMerge_sum (cs : List CandidateProduct) :
    sumMentions (fuzzyMerge cs) = sumMentions cs := by
  unfold fuzzyMerge
  rw [map_mergeGroup_sum, foldl_flat_sum cs []]
  simp [sumMentions]

theorem fuzzyMerge_length_le (cs : List CandidateProduct) :
    (fuzzyMerge cs).length ≤ cs.length := by
  unfold fuzzyMerge
  rw [List.length_map]
  calc (cs.foldl addToGroups []).length
      ≤ ((cs.foldl addToGroups []).flatMap groupMembers).length := groups_le_flat _
    _ = (([] : List (CandidateProduct × List CandidateProduct)).flatMap
          groupMembers).length + cs.length := foldl_flat_length cs []
    _ = cs.length := by simp

theorem applyOne_foldl_length (canIdx : ℕ) :
    ∀ (idxs : List ℕ) (st : List CandidateProduct × List ℕ),
      ((idxs.foldl (applyOne canIdx) st).1).length = st.1.length := by
  intro idxs
  induction idxs with
  | nil => intro st; rfl
  | cons idx idxs ih =>
    intro st
    rw [List.foldl_cons, ih]
    unfold applyOne
    split
    · rfl
    · split
      · simp [List.length_set]
      · rfl

theorem applyGroup_foldl_length :
    ∀ (gs : List MergeGroupSpec) (st : List CandidateProduct × List ℕ),
      ((gs.foldl applyGroup st).1).length = st.1.length := by
  intro gs
  induction gs with
  | nil => intro st; rfl
  | cons g gs ih =>
    intro st
    rw [List.foldl_cons, ih]
    unfold applyGroup
    split
    · rfl
    · exact applyOne_foldl_length g.canonicalIndex g.mergeIndices st

theorem geminiResolve_length (cands : List CandidateProduct)
    (resp : Option (List MergeGroupSpec)) :
    (geminiResolve cands resp).length ≤ cands.length := by
  cases resp with
  | none => exact le_refl _
  | some gs =>
    show (sortByMentionDesc
      (filterIdx (gs.foldl applyGroup (cands.take 80, [])).1
        (gs.foldl applyGroup (cands.take 80, [])).2 ++ cands.drop 80)).length ≤ _
    rw [sortByMentionDesc_length, List.length_append]
    have h1 := filterIdx_length_le (gs.foldl applyGroup (cands.take 80, [])).1
      (gs.foldl applyGroup (cands.take 80, [])).2
    have h2 := applyGroup_foldl_length gs (cands.take 80, [])
    have h3 : (cands.take 80).length = min 80 cands.length := List.length_take 80 cands
    have h4 : (cands.drop 80).length = cands.length - 80 := List.length_drop 80 cands
    simp only at h2
    omega

theorem geminiResolve_sum (cands : List CandidateProduct) (gs : List MergeGroupSpec)
    (hnodup : (gs.flatMap (fun g => g.mergeIndices)).Nodup)
    (hdisj : ∀ g ∈ gs, ∀ g' ∈ gs, ∀ i ∈ g.mergeIndices, i ≠ g'.canonicalIndex) :
    sumMentions (geminiResolve cands (some gs)) = sumMentions cands := by
  show sumMentions (sortByMentionDesc
    (filterIdx (gs.foldl applyGroup (cands.take 80, [])).1
      (gs.foldl applyGroup (cands.take 80, [])).2 ++ cands.drop 80)) = _
  obtain ⟨hlen, hsum⟩ := applyGroup_fold gs (cands.take 80) []
    hnodup (fun g _ i _ h => List.not_mem_nil i h)
    (fun g _ h => List.not_mem_nil g.canonicalIndex h) hdisj
  rw [sortByMentionDesc_sum, sumMentions_append, filterIdx_sum, hsum,
    uSumAux_nil (cands.take 80) 0, sumMentions_take_drop]

/-- C3 counterexample: an LLM merge-group response that reuses a merge index
in two groups double-counts that candidate's mentions: 21 pairwise-distinct
candidates of total mention count 21 resolve to 20 candidates of total
mention count 22, so the sum is not preserved for every response. -/
theorem resolveEntities_sum_counterexample :
    sumMentions distinctCands = 21 ∧
    sumMentions (resolveEntities distinctCands
      (some [{ canonicalIndex := 0, mergeIndices := [1] },
             { canonicalIndex := 2, mergeIndices := [1] }])) = 22 := by
  decide

/-- C3 (amended): resolveEntities never returns more products than it was
given, and it preserves the total mentionCount whenever phase 2 either does
not run, fails, or runs on a well-formed merge-group response: one in which
no index is listed as a merge index twice and no merge index is also a
canonical index.  (A response violating that well-formedness can double-count
or drop mentions, as the counterexample shows.) -/
theorem resolveEntities_claim (candidates : List CandidateProduct)
    (resp : Option (List MergeGroupSpec)) :
    (resolveEntities candidates resp).length ≤ candidates.length ∧
    ((∀ gs, resp = some gs →
        (gs.flatMap (fun g => g.mergeIndices)).Nodup ∧
        (∀ g ∈ gs, ∀ g' ∈ gs, ∀ i ∈ g.mergeIndices, i ≠ g'.canonicalIndex)) →
      sumMentions (resolveEntities candidates resp) = sumMentions candidates) := by
  unfold resolveEntities
  by_cases hlen : candidates.length ≤ 1
  · rw [if_pos hlen]
    exact ⟨le_refl _, fun _ => rfl⟩
  · simp only [if_neg hlen]
    by_cases hbig : 20 < (fuzzyMerge candidates).length
    · simp only [if_pos hbig]
      constructor
      · exact le_trans (geminiResolve_length (fuzzyMerge candidates) resp)
          (fuzzyMerge_length_le candidates)
      · intro hwf
        cases resp with
        | none =>
          show sumMentions (fuzzyMerge candidates) = _
          exact fuzzyMerge_sum candidates
        | some gs =>
          obtain ⟨hnodup, hdisj⟩ := hwf gs rfl
          rw [geminiResolve_sum (fuzzyMerge candidates) gs hnodup hdisj]
          exact fuzzyMerge_sum candidates
    · simp only [if_neg hbig]
      exact ⟨fuzzyMerge_length_le candidates, fun _ => fuzzyMerge_sum candidates⟩

/-- Witness for C3 (amended) on 21 concrete candidates and a well-formed
one-group response: the output is not longer and the mention-count sum is
preserved. -/
theorem resolveEntities_claim_witness :
    (resolveEntities distinctCands
      (some [{ canonicalIndex := 0, mergeIndices := [1] }])).length
      ≤ distinctCands.length ∧
    sumMentions (resolveEntities distinctCands
      (some [{ canonicalIndex := 0, mergeIndices := [1] }]))
      = sumMentions distinctCands := by
  have h := resolveEntities_claim distinctCands
    (some [{ canonicalIndex := 0, mergeIndices := [1] }])
  refine ⟨h.1, h.2 ?_⟩
  intro gs hgs
  cases hgs
  exact ⟨by decide, by decide⟩

theorem map_snd_orderedInsert (x : ℕ × ScoredItem) (l : List (ℕ × ScoredItem)) :
    (List.orderedInsert rankRelT x l).map Prod.snd
      = List.orderedInsert rankRel x.2 (l.map Prod.snd) := by
  induction l with
  | nil => rfl
  | cons y ys ih =>
    simp only [List.map_cons, List.orderedInsert]
    by_cases hr : rankRelT x y
    · rw [if_pos hr, if_pos (show rankRel x.2 y.2 from hr)]
      simp
    · rw [if_neg hr, if_neg (show ¬ rankRel x.2 y.2 from hr)]
      simp only [List.map_cons, ih]

theorem map_snd_insertionSort (l : List (ℕ × ScoredItem)) :
    (List.insertionSort rankRelT l).map Prod.snd
      = List.insertionSort rankRel (l.map Prod.snd) := by
  induction l with
  | nil => rfl
  | cons x xs ih =>
    simp only [List.insertionSort, List.map_cons]
    rw [map_snd_orderedInsert, ih]

theorem orderedInsert_sorted_strict (x : ℕ × ScoredItem) :
    ∀ l : List (ℕ × ScoredItem), l.Sorted rankStrict → (∀ y ∈ l, x.1 < y.1) →
      (List.orderedInsert rankRelT x l).Sorted rankStrict := by
  intro l
  induction l with
  | nil =>
    intro _ _
    simp [List.orderedInsert, List.Sorted]
  | cons y ys ih =>
    intro hl hidx
    have hys : ys.Sorted rankStrict := hl.of_cons
    have hyz : ∀ z ∈ ys, rankStrict y z := (List.pairwise_cons.mp hl).1
    simp only [List.orderedInsert]
    by_cases hr : rankRelT x y
    · rw [if_pos hr]
      refine List.Pairwise.cons ?_ hl
      intro z hz
      have hzy : z.2.scores.overall ≤ y.2.scores.overall := by
        rcases List.mem_cons.mp hz with h | h
        · rw [h]
        · rcases hyz z h with hlt | ⟨heq, _⟩
          · exact le_of_lt hlt
          · exact le_of_eq heq.symm
      have hzx : z.2.scores.overall ≤ x.2.scores.overall := le_trans hzy hr
      rcases lt_or_eq_of_le hzx with hlt | heq
      · exact Or.inl hlt
      · exact Or.inr ⟨heq.symm, hidx z hz⟩
    · rw [if_neg hr]
      have hxy : x.2.scores.overall < y.2.scores.overall := by
        unfold rankRelT rankRel at hr
        omega
      refine List.Pairwise.cons ?_
        (ih hys (fun z hz => hidx z (List.mem_cons_of_mem _ hz)))
      intro z hz
      rcases (List.mem_orderedInsert rankRelT).mp hz with h | h
      · rw [h]
        exact Or.inl hxy
      · exact hyz z h

theorem insertionSort_enumFrom_sorted (l : List ScoredItem) :
    ∀ i : ℕ, (List.insertionSort rankRelT (List.enumFrom i l)).Sorted rankStrict := by
  induction l with
  | nil => intro i; simp [List.insertionSort, List.Sorted]
  | cons a l ih =>
    intro i
    show (List.orderedInsert rankRelT (i, a)
      (List.insertionSort rankRelT (List.enumFrom (i + 1) l))).Sorted rankStrict
    apply orderedInsert_sorted_strict
    · exact ih (i + 1)
    · intro y hy
      obtain ⟨y1, y2⟩ := y
      have hmem : (y1, y2) ∈ List.enumFrom (i + 1) l :=
        ((List.perm_insertionSort rankRelT _).mem_iff).mp hy
      have h1 := (List.mk_mem_enumFrom_iff_le_and_getElem?_sub.mp hmem).1
      show i < y1
      omega

theorem sortedScoredOf_stable (candidates : List CandidateProduct)
    (evidenceMap : List (String × List ExtractedEvidence)) (intent : ParsedIntent) :
    ∀ (i j : ℕ) (a b : ScoredItem), i < j →
      (sortedScoredOf candidates evidenceMap intent)[i]? = some a →
      (sortedScoredOf candidates evidenceMap intent)[j]? = some b →
      a.scores.overall = b.scores.overall →
      ∃ pi pj : ℕ, pi < pj ∧
        (scoredOf candidates evidenceMap intent)[pi]? = some a ∧
        (scoredOf candidates evidenceMap intent)[pj]? = some b := by
  intro i j a b hij ha hb hab
  have hmap : (List.insertionSort rankRelT
      (scoredOf candidates evidenceMap intent).enum).map Prod.snd
      = sortedScoredOf candidates evidenceMap intent := by
    rw [map_snd_insertionSort, List.enum_map_snd]
    rfl
  have hsorted : (List.insertionSort rankRelT
      (scoredOf candidates evidenceMap intent).enum).Sorted rankStrict :=
    insertionSort_enumFrom_sorted (scoredOf candidates evidenceMap intent) 0
  rw [← hmap, List.getElem?_map] at ha hb
  cases hx : (List.insertionSort rankRelT
      (scoredOf candidates evidenceMap intent).enum)[i]? with
  | none => rw [hx] at ha; simp at ha
  | some x =>
    cases hy : (List.insertionSort rankRelT
        (scoredOf candidates evidenceMap intent).enum)[j]? with
    | none => rw [hy] at hb; simp at hb
    | some y =>
      rw [hx] at ha
      rw [hy] at hb
      simp at ha hb
      obtain ⟨hi, hgi⟩ := List.getElem?_eq_some.mp hx
      obtain ⟨hj, hgj⟩ := List.getElem?_eq_some.mp hy
      have hrel : rankStrict x y := by
        have hr := hsorted.rel_get_of_lt (a := ⟨i, hi⟩) (b := ⟨j, hj⟩)
          (Fin.mk_lt_mk.mpr hij)
        simp only [List.get_eq_getElem] at hr
        rw [hgi, hgj] at hr
        exact hr
      rcases hrel with hlt | ⟨heq, hidxlt⟩
      · exfalso
        rw [ha] at hlt
        rw [hb] at hlt
        omega
      · have hxmem : x ∈ (scoredOf candidates evidenceMap intent).enum :=
          ((List.perm_insertionSort rankRelT _).mem_iff).mp
            (List.get?_mem (by rw [List.get?_eq_getElem?]; exact hx))
        have hymem : y ∈ (scoredOf candidates evidenceMap intent).enum :=
          ((List.perm_insertionSort rankRelT _).mem_iff).mp
            (List.get?_mem (by rw [List.get?_eq_getElem?]; exact hy))
        obtain ⟨x1, x2⟩ := x
        obtain ⟨y1, y2⟩ := y
        have hx2 := (List.mk_mem_enumFrom_iff_le_and_getElem?_sub.mp hxmem).2
        have hy2 := (List.mk_mem_enumFrom_iff_le_and_getElem?_sub.mp hymem).2
        simp only [Nat.sub_zero] at hx2 hy2
        have ha2 : x2 = a := ha
        have hb2 : y2 = b := hb
        exact ⟨x1, y1, hidxlt, by rw [hx2, ha2], by rw [hy2, hb2]⟩

theorem generateRationales_map_scores (top10 : List ScoredItem)
    (rationaleResp : Option (List String)) :
    (generateRationales top10 rationaleResp).map (fun rp => rp.scores)
      = top10.map (fun item => item.scores) := by
  unfold generateRationales
  rw [List.map_map]
  show List.map (fun q : ℕ × ScoredItem => q.2.scores) top10.enum = _
  rw [show (fun q : ℕ × ScoredItem => q.2.scores)
      = (fun s : ScoredItem => s.scores) ∘ Prod.snd from rfl]
  rw [← List.map_map, List.enum_map_snd]

theorem generateRationales_map_rank (top10 : List ScoredItem)
    (rationaleResp : Option (List String)) :
    (generateRationales top10 rationaleResp).map (fun rp => rp.rank)
      = List.range' 1 top10.length := by
  unfold generateRationales
  rw [List.map_map]
  show List.map (fun q : ℕ × ScoredItem => q.1 + 1) top10.enum = _
  rw [show (fun q : ℕ × ScoredItem => q.1 + 1)
      = (fun n : ℕ => n + 1) ∘ Prod.fst from rfl]
  rw [← List.map_map, List.enum_map_fst, List.range'_eq_map_range]
  exact List.map_congr_left (fun n _ => by omega)

theorem sortedScoredOf_sorted (candidates : List CandidateProduct)
    (evidenceMap : List (String × List ExtractedEvidence)) (intent : ParsedIntent) :
    (sortedScoredOf candidates evidenceMap intent).Sorted rankRel := by
  unfold sortedScoredOf
  haveI : IsTotal ScoredItem rankRel :=
    ⟨fun a b => le_total b.scores.overall a.scores.overall⟩
  haveI : IsTrans ScoredItem rankRel :=
    ⟨fun _ _ _ h1 h2 => le_trans h2 h1⟩
  exact List.sorted_insertionSort rankRel _

theorem sortedScoredOf_length (candidates : List CandidateProduct)
    (evidenceMap : List (String × List ExtractedEvidence)) (intent : ParsedIntent) :
    (sortedScoredOf candidates evidenceMap intent).length = candidates.length := by
  unfold sortedScoredOf
  rw [(List.perm_insertionSort rankRel _).length_eq]
  exact List.length_map _ _

/-- C1: every rankCandidates run reports candidateCount equal to the full
pre-truncation candidate total; the ranks are exactly the dense sequence
1..N with N = min(10, candidate count); rank k carries the scores of the
k-th entry of the sorted scored list, whose overall values are
non-increasing; and ties in the sorted order preserve the original candidate
order (stability): two equal-overall entries at sorted positions i < j come
from scored positions pi < pj. -/
theorem rankCandidates_claim (candidates : List CandidateProduct)
    (evidenceMap : List (String × List ExtractedEvidence)) (intent : ParsedIntent)
    (rationaleResp : Option (List String)) :
    (rankCandidates candidates evidenceMap intent rationaleResp).candidateCount
        = candidates.length ∧
    ((rankCandidates candidates evidenceMap intent rationaleResp).rankedProducts.map
        (fun rp => rp.rank)) = List.range' 1 (min 10 candidates.length) ∧
    ((rankCandidates candidates evidenceMap intent rationaleResp).rankedProducts.map
        (fun rp => rp.scores))
      = ((sortedScoredOf candidates evidenceMap intent).take 10).map
          (fun item => item.scores) ∧
    ((rankCandidates candidates evidenceMap intent rationaleResp).rankedProducts.map
        (fun rp => rp.scores.overall)).Sorted (· ≥ ·) ∧
    (∀ (i j : ℕ) (a b : ScoredItem), i < j →
      (sortedScoredOf candidates evidenceMap intent)[i]? = some a →
      (sortedScoredOf candidates evidenceMap intent)[j]? = some b →
      a.scores.overall = b.scores.overall →
      ∃ pi pj : ℕ, pi < pj ∧
        (scoredOf candidates evidenceMap intent)[pi]? = some a ∧
        (scoredOf candidates evidenceMap intent)[pj]? = some b) := by
  have hranked : (rankCandidates candidates evidenceMap intent rationaleResp).rankedProducts
      = generateRationales ((sortedScoredOf candidates evidenceMap intent).take 10)
          rationaleResp := rfl
  refine ⟨rfl, ?_, ?_, ?_, sortedScoredOf_stable candidates evidenceMap intent⟩
  · rw [hranked, generateRationales_map_rank, List.length_take,
      sortedScoredOf_length]
  · rw [hranked, generateRationales_map_scores]
  · rw [hranked]
    have hcomp : (generateRationales
          ((sortedScoredOf candidates evidenceMap intent).take 10) rationaleResp).map
        (fun rp => rp.scores.overall)
        = ((generateRationales
            ((sortedScoredOf candidates evidenceMap intent).take 10) rationaleResp).map
              (fun rp => rp.scores)).map (fun s => s.overall) := by
      rw [List.map_map]
      rfl
    rw [hcomp, generateRationales_map_scores, List.map_map]
    exact List.pairwise_map.mpr
      (List.Pairwise.sublist (List.take_sublist 10 _)
        (sortedScoredOf_sorted candidates evidenceMap intent))

/-- Witness for C1 at two identical candidates with no evidence: candidate
count 2, ranks [1, 2], and the tie between the two equal-overall entries
resolves to original positions 0 < 1. -/
theorem rankCandidates_claim_witness :
    (rankCandidates [acmeCand, acmeCand] [] emptyIntent none).candidateCount = 2 ∧
    ((rankCandidates [acmeCand, acmeCand] [] emptyIntent none).rankedProducts.map
      (fun rp => rp.rank)) = [1, 2] ∧
    (∃ pi pj : ℕ, pi < pj ∧
      (scoredOf [acmeCand, acmeCand] [] emptyIntent)[pi]? = some
        { candidate := acmeCand, scores := computeScores acmeCand [] emptyIntent,
          evidence := [] } ∧
      (scoredOf [acmeCand, acmeCand] [] emptyIntent)[pj]? = some
        { candidate := acmeCand, scores := computeScores acmeCand [] emptyIntent,
          evidence := [] }) := by
  have h := rankCandidates_claim [acmeCand, acmeCand] [] emptyIntent none
  have hsorted : sortedScoredOf [acmeCand, acmeCand] [] emptyIntent
      = [{ candidate := acmeCand, scores := computeScores acmeCand [] emptyIntent,
           evidence := [] },
         { candidate := acmeCand, scores := computeScores acmeCand [] emptyIntent,
           evidence := [] }] := by
    show List.insertionSort rankRel
      [{ candidate := acmeCand, scores := computeScores acmeCand [] emptyIntent,
         evidence := [] },
       { candidate := acmeCand, scores := computeScores acmeCand [] emptyIntent,
         evidence := [] }] = _
    simp [List.insertionSort, List.orderedInsert]
  refine ⟨h.1, ?_, ?_⟩
  · rw [h.2.1]
    rfl
  · exact h.2.2.2.2 0 1 _ _ (by omega) (by rw [hsorted]; rfl) (by rw [hsorted]; rfl) rfl
